import Mathlib

/-!
wagner: hypersphere sampler, species groups and species tree

A shallow embedding of `include/wagner/n-sphere.hh`, of the group bookkeeping
and the order declared in `include/wagner/species.hh`, and of the extinction
and speciation steps declared in `include/wagner/speciestree.hh`.

Conventions of the embedding.

* `std::vector<Real>` is a `List R`.  The template parameter `Real` is any
  type `R` with `0`, `+`, `-`, `*` and a decidable `<`, of which nothing is
  assumed: what is proved of the functions at this generality holds for the
  rounded arithmetic the program runs with.  `binary64` is that arithmetic for
  `Real = double`.  Statements that need exact arithmetic say so and take `R`
  to be a linearly ordered commutative ring, or the real numbers.
* Loop counters are natural numbers.  Every `for (i = 0; i < n; ++i)` loop is
  written as a recursion on the number `k = n - i` of iterations still to run,
  next to the counter `i` itself.  The counters declared `auto i = 0u` in
  `euclidean_distance` and `white_noise` are `unsigned`; they agree with the
  natural numbers on every vector whose length fits an `unsigned`.
* `std::mt19937_64` together with the distribution object that reads it is the
  stream of the values the calls `dist(rng)` return, in call order
  (`Draws R`).  Drawing a value returns the head and leaves the tail.
* The two rejection loops have no exit but acceptance.  They are given a
  number `fuel` of trials to watch: the result is `some _` when the loop has
  returned within `fuel` trials and `none` when it is still retrying after
  `fuel` trials.
* `std::sqrt` is a parameter of `euclidean_distance`.
* Default arguments (`radius = 0.5`) are not modelled: the radius is always
  passed.
-/

namespace wagner

/-! ## Generator -/

/-- The values that successive calls `dist(rng)` return. -/
abbrev Draws (R : Type) := Nat → R

/-- The stream left after `k` calls of `dist(rng)`. -/
def Draws.skip {R : Type} (rng : Draws R) (k : Nat) : Draws R := fun j => rng (j + k)

section sampler

variable {R : Type} [Zero R] [Add R] [Sub R] [Mul R] [LT R] [∀ a b : R, Decidable (a < b)]

/-! ## n-sphere.hh -/

/-- Embedding of `in_sphere`: `sum = 0; for (x : sphere) sum += x * x;
return sum < radius * radius`. -/
def in_sphere (sphere : List R) (radius : R) : Bool :=
  decide (sphere.foldl (fun sum x => sum + x * x) 0 < radius * radius)

/-- The loop `for (i = 0; i < n; ++i) sphere[i] = dist(rng)` of
`random_n_sphere`, with `k = n - i` iterations to go. -/
def fill_sphere : Nat → Nat → List R → Draws R → List R × Draws R
  | 0, _, sphere, rng => (sphere, rng)
  | k + 1, i, sphere, rng => fill_sphere k (i + 1) (sphere.set i (rng 0)) (rng.skip 1)

/-- The `do { ... } while (!in_sphere(sphere, radius))` loop of
`random_n_sphere`, watched for `fuel` trials.  The vector `sphere` is the one
object all trials write to. -/
def random_n_sphere_loop : Nat → List R → Draws R → Nat → R → Option (List R × Draws R)
  | 0, _, _, _, _ => none
  | fuel + 1, sphere, rng, n, radius =>
    let filled := fill_sphere n 0 sphere rng
    if in_sphere filled.1 radius then some filled
    else random_n_sphere_loop fuel filled.1 filled.2 n radius

/-- Embedding of `random_n_sphere`: `sphere` starts as `n` zeros and the
rejection loop runs on it.  The result holds the returned vector and the
generator state left behind. -/
def random_n_sphere (fuel : Nat) (rng : Draws R) (n : Nat) (radius : R) :
    Option (List R × Draws R) :=
  random_n_sphere_loop fuel (List.replicate n 0) rng n radius

/-- The loop of `euclidean_distance`:
`for (i = 0; i < n; ++i) { sub = xs[i] - ys[i]; sum += sub * sub; }`,
with `k = n - i` iterations to go. -/
def euclidean_loop : Nat → Nat → List R → List R → R → R
  | 0, _, _, _, sum => sum
  | k + 1, i, xs, ys, sum =>
    let sub := xs.getD i 0 - ys.getD i 0
    euclidean_loop k (i + 1) xs ys (sum + sub * sub)

/-- Embedding of `euclidean_distance`; `sqrt` stands for `std::sqrt`. -/
def euclidean_distance (sqrt : R → R) (xs ys : List R) : R :=
  sqrt (euclidean_loop (min xs.length ys.length) 0 xs ys 0)

/-- The loop `for (i = 0; i < n; ++i) new_xs[i] = xs[i] + d(rng)` of
`white_noise`, with `k = n - i` iterations to go. -/
def add_noise : Nat → Nat → List R → List R → Draws R → List R × Draws R
  | 0, _, _, new_xs, rng => (new_xs, rng)
  | k + 1, i, xs, new_xs, rng =>
    add_noise k (i + 1) xs (new_xs.set i (xs.getD i 0 + rng 0)) (rng.skip 1)

/-- The loop `for (i = 0; i < n; ++i) xs[i] = new_xs[i]` of `white_noise`,
with `k = n - i` iterations to go. -/
def commit_noise : Nat → Nat → List R → List R → List R
  | 0, _, xs, _ => xs
  | k + 1, i, xs, new_xs => commit_noise k (i + 1) (xs.set i (new_xs.getD i 0)) new_xs

/-- Embedding of `white_noise`, watched for `fuel` trials of its `for (;;)`
loop.  The result holds the vector left in `xs` and the generator state. -/
def white_noise : Nat → List R → Draws R → R → Option (List R × Draws R)
  | 0, _, _, _ => none
  | fuel + 1, xs, rng, radius =>
    let n := xs.length
    let cand := add_noise n 0 xs xs rng
    if in_sphere cand.1 radius then some (commit_noise n 0 xs cand.1, cand.2)
    else white_noise fuel xs cand.2 radius

/-! ## Specification-side vocabulary for the sampler -/

/-- The draws consumed by trial number `k` when every trial consumes `n`. -/
def trial_block (rng : Draws R) (n k : Nat) : List R :=
  (List.range n).map (fun i => rng (k * n + i))

/-- The candidate of trial number `k` of `white_noise`: the original `xs` plus
the noise block of that trial. -/
def noise_candidate (xs : List R) (rng : Draws R) (k : Nat) : List R :=
  (List.range xs.length).map (fun i => xs.getD i 0 + rng (k * xs.length + i))

/-- The sum of squares as `in_sphere` accumulates it: the squares of the
components, added one after the other to 0 in the arithmetic of `R`. -/
def accumulated_squares (v : List R) : R :=
  (v.map (fun x => x * x)).foldl (fun sum y => sum + y) 0

end sampler

section sampler_exact

variable {R : Type} [LinearOrderedCommRing R]

/-- The sum of the squares of the components. -/
def sum_squares (v : List R) : R := (v.map (fun x => x * x)).sum

end sampler_exact

/-! ## The arithmetic of `double`

The functions of `n-sphere.hh` are templates over `Real`, and the generator
functions restrict `Real` to the floating-point types.  `binary64` is the
`double` of IEEE 754, with rounding to nearest, ties to even, gradual
underflow and overflow to infinity; it instantiates `R` wherever a statement
is about the arithmetic the program runs with.
-/

/-- An IEEE 754 binary64 value, the `double` of the platform: not-a-number,
an infinity with its sign, or the finite value `m * 2 ^ e`.  The two zeros are
one value, `fin 0 (-1074)`; comparison and arithmetic do not tell them apart
in any other way than by the sign of a zero result. -/
inductive binary64 where
  | nan : binary64
  | inf (negative : Bool) : binary64
  | fin (m : Int) (e : Int) : binary64
deriving DecidableEq

namespace binary64

/-- The exponent of the least subnormal double, `2 ^ (-1074)`. -/
def emin : Int := -1074

/-- The largest exponent of a 53-bit significand: the largest double is
`(2 ^ 53 - 1) * 2 ^ 971`. -/
def emax : Int := 971

/-- Counting binary digits by halving; the first argument bounds the number
of halvings. -/
def bits_loop : Nat → Nat → Nat → Nat
  | 0, _, acc => acc
  | fuel + 1, n, acc => if n = 0 then acc else bits_loop fuel (n / 2) (acc + 1)

/-- The number of binary digits of a natural number. -/
def bits (n : Nat) : Nat := bits_loop n n 0

/-- The double nearest to `n * 2 ^ e`, ties to the even significand; values
that round beyond the largest double become infinity. -/
def round_nat (n : Nat) (e : Int) : binary64 :=
  let e1 := max (e + (bits n : Int) - 53) emin
  if n = 0 then fin 0 emin
  else if e1 ≤ e then
    if emax < e1 then inf false else fin ((n * 2 ^ (e - e1).toNat : Nat) : Int) e1
  else
    let s := (e1 - e).toNat
    let q := n / 2 ^ s
    let r := n % 2 ^ s
    let half := 2 ^ (s - 1)
    let q1 := if half < r ∨ (r = half ∧ q % 2 = 1) then q + 1 else q
    if q1 = 2 ^ 53 then
      if emax < e1 + 1 then inf false else fin ((2 ^ 52 : Nat) : Int) (e1 + 1)
    else if emax < e1 then inf false
    else fin (q1 : Int) e1

/-- Negation. -/
def neg : binary64 → binary64
  | nan => nan
  | inf s => inf (!s)
  | fin m e => fin (-m) e

/-- The double nearest to `m * 2 ^ e`. -/
def round (m : Int) (e : Int) : binary64 :=
  if m < 0 then neg (round_nat m.natAbs e) else round_nat m.natAbs e

/-- Addition, rounded. -/
def add : binary64 → binary64 → binary64
  | nan, _ => nan
  | _, nan => nan
  | inf s, inf t => if s = t then inf s else nan
  | inf s, fin _ _ => inf s
  | fin _ _, inf t => inf t
  | fin m1 e1, fin m2 e2 =>
    round (m1 * ((2 ^ (e1 - min e1 e2).toNat : Nat) : Int)
      + m2 * ((2 ^ (e2 - min e1 e2).toNat : Nat) : Int)) (min e1 e2)

/-- Subtraction, rounded. -/
def sub (x y : binary64) : binary64 := add x (neg y)

/-- Multiplication, rounded. -/
def mul : binary64 → binary64 → binary64
  | nan, _ => nan
  | _, nan => nan
  | inf s, inf t => inf (s != t)
  | inf s, fin m _ => if m = 0 then nan else inf (s != decide (m < 0))
  | fin m _, inf t => if m = 0 then nan else inf (decide (m < 0) != t)
  | fin m1 e1, fin m2 e2 => round (m1 * m2) (e1 + e2)

/-- The comparison `<`; it is false as soon as one side is not a number. -/
def lt : binary64 → binary64 → Bool
  | nan, _ => false
  | _, nan => false
  | inf s, inf t => s && !t
  | inf s, fin _ _ => s
  | fin _ _, inf t => !t
  | fin m1 e1, fin m2 e2 =>
    decide (m1 * ((2 ^ (e1 - min e1 e2).toNat : Nat) : Int)
      < m2 * ((2 ^ (e2 - min e1 e2).toNat : Nat) : Int))

/-- The comparison `<=`; it is false as soon as one side is not a number. -/
def le : binary64 → binary64 → Bool
  | nan, _ => false
  | _, nan => false
  | inf s, inf t => s || !t
  | inf s, fin _ _ => s
  | fin _ _, inf t => !t
  | fin m1 e1, fin m2 e2 =>
    decide (m1 * ((2 ^ (e1 - min e1 e2).toNat : Nat) : Int)
      ≤ m2 * ((2 ^ (e2 - min e1 e2).toNat : Nat) : Int))

/-- The absolute value. -/
def abs : binary64 → binary64
  | nan => nan
  | inf _ => inf false
  | fin m e => fin (m.natAbs : Int) e

/-- The bits of the integer square root, from bit `b - 1` down to bit 0. -/
def isqrt_loop : Nat → Nat → Nat → Nat
  | 0, _, acc => acc
  | b + 1, n, acc =>
    isqrt_loop b n (if (acc + 2 ^ b) * (acc + 2 ^ b) ≤ n then acc + 2 ^ b else acc)

/-- The integer square root: the largest `s` with `s * s ≤ n`. -/
def isqrt (n : Nat) : Nat := isqrt_loop (bits n / 2 + 1) n 0

/-- The square root, correctly rounded: the root of the significand scaled by
an even power of two is taken to more than 55 bits, with one more bit that
tells whether anything was left, and rounded. -/
def sqrt : binary64 → binary64
  | nan => nan
  | inf s => if s then nan else inf false
  | fin m e =>
    if m < 0 then nan
    else if m = 0 then fin 0 emin
    else
      let k : Nat := if e % 2 = 0 then 112 else 113
      let n := m.natAbs * 2 ^ k
      let s := isqrt n
      round_nat (2 * s + (if s * s = n then 0 else 1)) ((e - (k : Int)) / 2 - 1)

instance : Zero binary64 := ⟨fin 0 emin⟩
instance : Add binary64 := ⟨add⟩
instance : Sub binary64 := ⟨sub⟩
instance : Mul binary64 := ⟨mul⟩
instance : Neg binary64 := ⟨neg⟩
instance : LT binary64 := ⟨fun x y => lt x y = true⟩
instance : LE binary64 := ⟨fun x y => le x y = true⟩
instance (x y : binary64) : Decidable (x < y) := inferInstanceAs (Decidable (lt x y = true))
instance (x y : binary64) : Decidable (x ≤ y) := inferInstanceAs (Decidable (le x y = true))

/-- The value is a number, not an infinity and not `nan`. -/
def finite : binary64 → Bool
  | fin _ _ => true
  | _ => false

/-- The value is not below zero: it is `nan`, plus infinity, or a number with
a significand that is not negative. -/
def not_neg : binary64 → Bool
  | nan => true
  | inf s => !s
  | fin m _ => decide (0 ≤ m)

/-- The number a finite double stands for; 0 for the values that are not
numbers. -/
def val : binary64 → ℚ
  | fin m e => (m : ℚ) * (2 : ℚ) ^ e
  | _ => 0

end binary64


/-! ## species.hh: locations and groups

`species.hh` declares `m_locations`, `m_grouping`, `up_groups` and `pop_group`;
their bodies are not part of the sources at hand and are modelled from the
specification (sections 3 and 4.3).
-/

section species_model

variable {P : Type} [DecidableEq P]

/-- Modelled from the spec: the external `network<point>` (its header is not
among the sources).  It answers which locations are adjacent to a location;
adjacency is a symmetric relation. -/
structure network (P : Type) where
  /-- The locations adjacent to a location. -/
  neighbors : P → List P
  /-- Adjacency is symmetric. -/
  symm : ∀ p q, q ∈ neighbors p → p ∈ neighbors q

/-- Modelled from the spec: the `map<point, int>` behind `m_locations`, a
location-to-group mapping.  The entries are listed in iteration order and no
location occurs twice. -/
structure locations (P : Type) where
  /-- The entries `(location, group id)` in iteration order. -/
  entries : List (P × Int)
  /-- A map holds each key once. -/
  nodup : (entries.map Prod.fst).Nodup

/-- The group id that marks a location as not assigned to a group; clearing
the cached identifiers writes it everywhere. -/
def unassigned : Int := -1

/-- The occupied locations, in iteration order. -/
def locations.keys (m : locations P) : List P := m.entries.map Prod.fst

/-- Lookup in a list of entries. -/
def find_entry : List (P × Int) → P → Option Int
  | [], _ => none
  | e :: rest, p => if e.1 = p then some e.2 else find_entry rest p

/-- The group id of a location: `none` when the location is not occupied. -/
def locations.find (m : locations P) (p : P) : Option Int := find_entry m.entries p

/-- The assignment `m_locations[p] = gid` for an occupied `p`. -/
def locations.assign (m : locations P) (p : P) (gid : Int) : locations P where
  entries := m.entries.map (fun e => if e.1 = p then (e.1, gid) else e)
  nodup := by
    have h : (m.entries.map (fun e => if e.1 = p then (e.1, gid) else e)).map Prod.fst
        = m.entries.map Prod.fst := by
      rw [List.map_map]
      apply List.map_congr_left
      intro e _
      by_cases he : e.1 = p <;> simp [he]
    rw [h]
    exact m.nodup

/-- Clearing the cached group identifiers. -/
def locations.clear (m : locations P) : locations P where
  entries := m.entries.map (fun e => (e.1, unassigned))
  nodup := by
    have h : (m.entries.map (fun e => (e.1, unassigned))).map Prod.fst
        = m.entries.map Prod.fst := by
      rw [List.map_map]
      rfl
    rw [h]
    exact m.nodup

/-- Removing every location that carries the group id `g`. -/
def locations.remove_group (m : locations P) (g : Int) : locations P where
  entries := m.entries.filter (fun e => decide (e.2 ≠ g))
  nodup := m.nodup.sublist ((List.filter_sublist m.entries).map Prod.fst)

/-- The set of locations that carry the group id `g`. -/
def locations.group (m : locations P) (g : Int) : Finset P :=
  ((m.entries.filter (fun e => decide (e.2 = g))).map Prod.fst).toFinset

/-- The state of a species that the group operations read and write. -/
structure species (P : Type) where
  /-- Unique ID of the species. -/
  id : Nat
  /-- The trait vector. -/
  m_traits : List ℚ
  /-- Location/group map. -/
  m_locations : locations P
  /-- Number of groups. -/
  m_groups : Nat

/-- Modelled from the spec: `species::m_grouping`, the recursive flood of one
group.  It tags `p` with `gid` and recurses into every neighbour of `p` that
is occupied by the species and not yet assigned.  The first argument bounds
the recursion depth; `up_groups` passes the number of locations, which the
recursion cannot exhaust because every call tags one more location. -/
def m_grouping (n : network P) : Nat → P → Int → locations P → locations P
  | 0, _, _, m => m
  | depth + 1, p, gid, m =>
    (n.neighbors p).foldl
      (fun acc q => if acc.find q = some unassigned then m_grouping n depth q gid acc else acc)
      (m.assign p gid)

/-- The scan of `up_groups` over the occupied locations: a location not yet
assigned starts a new group, which is flooded, and the group id is incremented
afterwards. -/
def up_groups_scan (n : network P) (depth : Nat) :
    List P → locations P → Nat → locations P × Nat
  | [], m, groups => (m, groups)
  | p :: rest, m, groups =>
    if m.find p = some unassigned then
      up_groups_scan n depth rest (m_grouping n depth p (groups : Int) m) (groups + 1)
    else up_groups_scan n depth rest m groups

/-- Modelled from the spec: `species::up_groups` (`recompute_groups`).  It
clears the cached group identifiers, floods a new group from every occupied
location not yet assigned, stores the group count and returns it. -/
def species.up_groups (s : species P) (n : network P) : species P × Nat :=
  let cleared := s.m_locations.clear
  let r := up_groups_scan n cleared.entries.length cleared.keys cleared 0
  ({ s with m_locations := r.1, m_groups := r.2 }, r.2)

/-- Modelled from the spec: `species::pop_group` (`extract_group`).  It
returns every location that carries the group id `g` and removes those
locations from the species; the cached group count is left as it is, stale. -/
def species.pop_group (s : species P) (g : Int) : Finset P × species P :=
  (s.m_locations.group g, { s with m_locations := s.m_locations.remove_group g })

/-- Embedding of `species::get_locations` as the list of entries. -/
def species.get_locations (s : species P) : List (P × Int) := s.m_locations.entries

/-- Embedding of `species::is_in`: the species occupies the location. -/
def species.is_in (s : species P) (p : P) : Bool := decide (p ∈ s.m_locations.keys)

/-! ## Specification-side vocabulary for groups -/

/-- One step between two occupied locations that are adjacent in the network;
`K` lists the occupied locations. -/
def adjacent_in (K : List P) (n : network P) (a b : P) : Prop :=
  a ∈ K ∧ b ∈ K ∧ b ∈ n.neighbors a

/-- A chain of adjacent occupied locations leads from `a` to `b`. -/
def connected_in (K : List P) (n : network P) (a b : P) : Prop :=
  Relation.ReflTransGen (adjacent_in K n) a b

/-- Two locations are connected through occupied locations of the species. -/
def species.connected (s : species P) (n : network P) (a b : P) : Prop :=
  connected_in s.m_locations.keys n a b

/-- The occupied locations of a species, as a type. -/
def species.occupied (s : species P) : Type := {p : P // p ∈ s.m_locations.keys}

/-- Being connected through occupied locations, as a relation on the occupied
locations. -/
def species.connected_rel (s : species P) (n : network P) (a b : s.occupied) : Prop :=
  s.connected n a.1 b.1

/-- The connected components of the occupied set: the occupied locations up to
being connected. -/
def species.components (s : species P) (n : network P) : Type :=
  Quot (s.connected_rel n)

/-- The number of locations not yet assigned to a group. -/
def locations.pending (m : locations P) : Nat :=
  m.entries.countP (fun e => decide (e.2 = unassigned))

/-- The map `m2` comes from `m1` by giving the group id `gid` to some of the
locations that `m1` leaves unassigned. -/
def locations.extends_to (gid : Int) (m1 m2 : locations P) : Prop :=
  m2.keys = m1.keys ∧
  (∀ q, m1.find q ≠ some unassigned → m2.find q = m1.find q) ∧
  (∀ q, m1.find q = some unassigned → m2.find q = some unassigned ∨ m2.find q = some gid) ∧
  m2.pending ≤ m1.pending

/-- What a flood with group id `gid` from the seeds `S` achieves on the way
from `m1` to `m2`: the seeds are settled, every newly tagged location has all
its neighbours settled, and it is connected to an occupied seed. -/
def flooded (n : network P) (S : List P) (gid : Int) (m1 m2 : locations P) : Prop :=
  locations.extends_to gid m1 m2 ∧
  (∀ x, x ∈ S → m2.find x ≠ some unassigned) ∧
  (∀ q, m1.find q = some unassigned → m2.find q = some gid →
    ∀ x, x ∈ n.neighbors q → m2.find x ≠ some unassigned) ∧
  (∀ q, m1.find q = some unassigned → m2.find q = some gid →
    ∃ x, x ∈ S ∧ x ∈ m1.keys ∧ connected_in m1.keys n x q)

/-- The invariant of the scan of `up_groups` once `groups` groups are
complete: tags are below `groups`, tagged locations have their occupied
neighbours in their own group, equal tags mean connected, and every group id
below `groups` is in use. -/
def scan_invariant (n : network P) (K : List P) (groups : Nat) (m : locations P) : Prop :=
  m.keys = K ∧
  (∀ p, p ∈ K → m.find p = some unassigned ∨ ∃ t : Nat, t < groups ∧ m.find p = some (t : Int)) ∧
  (∀ p x, p ∈ K → x ∈ K → x ∈ n.neighbors p → m.find p ≠ some unassigned →
    m.find x = m.find p) ∧
  (∀ p q, p ∈ K → q ∈ K → m.find p ≠ some unassigned → m.find p = m.find q →
    connected_in K n p q) ∧
  (∀ t : Nat, t < groups → ∃ p, p ∈ K ∧ m.find p = some (t : Int))

/-- Scenario B of the specification: locations 1 and 2 are adjacent and
location 3 is isolated. -/
def scenario_network : network Nat where
  neighbors := fun p => if p = 1 then [2] else if p = 2 then [1] else []
  symm := by
    intro p q h
    by_cases h1 : p = 1
    · subst h1
      simp at h
      subst h
      simp
    · by_cases h2 : p = 2
      · subst h2
        simp at h
        subst h
        simp
      · simp [h1, h2] at h

/-- Scenario B of the specification: the root species occupying the locations
1, 2 and 3.  The tags it starts with are immaterial, `up_groups` clears them. -/
def scenario_species : species Nat where
  id := 0
  m_traits := [0, 0]
  m_locations := ⟨[(1, 0), (2, 0), (3, 0)], by decide⟩
  m_groups := 0

end species_model

/-! ## species.hh: order; speciestree.hh

`species.hh` declares the comparison operators and `extinct`, and
`speciestree.hh` declares `rmv_extinct` and `speciate`; their bodies, and the
header of `tbranch`, are not part of the sources at hand and are modelled from
the specification (sections 3, 4.2, 4.3 and 4.4).

Pointers into the tree are handles: the tree keeps its nodes in one list, in
the order in which they were created, and the handle of a node is its index.
The counter `m_id_count` is a natural number: every identifier it hands out
belongs to a species that stays in the tree, so the count of identifiers
never outgrows the count of objects in memory, which a `size_t` holds.
-/

section tree_model

variable {P : Type} [DecidableEq P]

/-- Modelled from the spec: `species::operator==`, declared under the comment
"Use the ID to test equality and order". -/
def species.op_eq (s t : species P) : Bool := decide (s.id = t.id)

/-- Modelled from the spec: `species::operator!=`. -/
def species.op_ne (s t : species P) : Bool := decide (s.id ≠ t.id)

/-- Modelled from the spec: `species::operator<`. -/
def species.op_lt (s t : species P) : Bool := decide (s.id < t.id)

/-- Modelled from the spec: `species::operator>`. -/
def species.op_gt (s t : species P) : Bool := decide (s.id > t.id)

/-- Modelled from the spec: `species::extinct`; a species with an empty
location mapping is extinct. -/
def species.extinct (s : species P) : Bool := s.m_locations.entries.isEmpty

/-- Modelled from the spec: a node of the tree, the `tbranch` part of a
species (parent back-reference, owned children, creation date, end date once
retired) next to its `species` part. -/
structure tnode (P : Type) where
  /-- Handle of the parent, absent for the root. -/
  m_parent : Option Nat
  /-- Handles of the children, in creation order. -/
  m_children : List Nat
  /-- Date at which the branch was created. -/
  m_start : Nat
  /-- Date at which the branch ended, once retired. -/
  m_stop : Option Nat
  /-- The species carried by the node. -/
  sp : species P

/-- Modelled from the spec: the state of a `speciestree`. -/
structure speciestree (P : Type) where
  /-- The nodes the tree owns, in creation order; a handle is an index. -/
  m_nodes : List (tnode P)
  /-- Handle of the root. -/
  m_root : Nat
  /-- The tips of the tree (the extant species), as handles. -/
  m_tips : Finset Nat
  /-- Start date of the tree. -/
  m_start_date : Nat
  /-- Counter to name species. -/
  m_id_count : Nat

/-- Modelled from the spec: the constructor `speciestree(traits)`.  The root
species has the given traits, no locations and identifier 0, and is the only
tip. -/
def speciestree.create (traits : List ℚ) : speciestree P where
  m_nodes := [{ m_parent := none, m_children := [], m_start := 0, m_stop := none,
                sp := { id := 0, m_traits := traits, m_locations := ⟨[], List.nodup_nil⟩,
                        m_groups := 0 } }]
  m_root := 0
  m_tips := {0}
  m_start_date := 0
  m_id_count := 1

/-- The species behind a handle is extinct. -/
def speciestree.extinct_at (t : speciestree P) (h : Nat) : Bool :=
  match t.m_nodes[h]? with
  | some nd => nd.sp.extinct
  | none => false

/-- Modelled from the spec: `speciestree::rmv_extinct` (`prune_extinct`).  It
scans the extant set, stamps the end date of every species whose footprint is
empty, detaches those from the extant set, not from the tree, and returns
them. -/
def speciestree.rmv_extinct (t : speciestree P) (date : Nat) : Finset Nat × speciestree P :=
  let retired := t.m_tips.filter (fun h => t.extinct_at h = true)
  (retired,
    { t with
      m_nodes := t.m_nodes.mapIdx
        (fun h nd => if h ∈ retired then { nd with m_stop := some date } else nd)
      m_tips := t.m_tips \ retired })

/-- Modelled from the spec: `speciestree::speciate`.  It allocates a new
species as a child of `parent`, with the next identifier and a copy of the
traits of `parent`, adds it to the extant set and returns it. -/
def speciestree.speciate (t : speciestree P) (parent date : Nat) : Nat × speciestree P :=
  let h := t.m_nodes.length
  let traits := match t.m_nodes[parent]? with
    | some nd => nd.sp.m_traits
    | none => []
  let child : tnode P :=
    { m_parent := some parent, m_children := [], m_start := date, m_stop := none,
      sp := { id := t.m_id_count, m_traits := traits, m_locations := ⟨[], List.nodup_nil⟩,
              m_groups := 0 } }
  (h,
    { t with
      m_nodes := t.m_nodes.mapIdx
        (fun i nd => if i = parent then { nd with m_children := nd.m_children ++ [h] } else nd)
        ++ [child]
      m_tips := insert h t.m_tips
      m_id_count := t.m_id_count + 1 })

/-! ## Specification-side vocabulary for the tree -/

/-- The identifiers of the species in the tree, in creation order. -/
def speciestree.ids (t : speciestree P) : List Nat := t.m_nodes.map (fun nd => nd.sp.id)

/-- The identifier of the species behind a handle. -/
def speciestree.id_at (t : speciestree P) (h : Nat) : Option Nat :=
  (t.m_nodes[h]?).map (fun nd => nd.sp.id)

/-- The tree after a sequence of `speciate` calls, each given as
`(parent, date)`. -/
def speciestree.speciate_all (t : speciestree P) : List (Nat × Nat) → speciestree P
  | [] => t
  | call :: calls => (t.speciate call.1 call.2).2.speciate_all calls

/-- The identifiers that a sequence of `speciate` calls gives to the species
it creates, each read from the species returned by its call. -/
def speciestree.speciate_ids (t : speciestree P) : List (Nat × Nat) → List (Option Nat)
  | [] => []
  | call :: calls =>
    (t.speciate call.1 call.2).2.id_at (t.speciate call.1 call.2).1
      :: (t.speciate call.1 call.2).2.speciate_ids calls

/-- A tree with three tips of which the second has lost its last location. -/
def scenario_tree : speciestree Nat where
  m_nodes :=
    [{ m_parent := none, m_children := [1, 2], m_start := 0, m_stop := none,
       sp := { id := 0, m_traits := [0], m_locations := ⟨[(1, 0)], by decide⟩, m_groups := 1 } },
     { m_parent := some 0, m_children := [], m_start := 3, m_stop := none,
       sp := { id := 1, m_traits := [0], m_locations := ⟨[], by decide⟩, m_groups := 0 } },
     { m_parent := some 0, m_children := [], m_start := 5, m_stop := none,
       sp := { id := 2, m_traits := [1], m_locations := ⟨[(2, 0)], by decide⟩, m_groups := 1 } }]
  m_root := 0
  m_tips := {0, 1, 2}
  m_start_date := 0
  m_id_count := 3

end tree_model

set_option linter.unusedSectionVars false
set_option maxRecDepth 100000
set_option exponentiation.threshold 3000

section sampler_lemmas

variable {R : Type} [Zero R] [Add R] [Sub R] [Mul R] [LT R] [∀ a b : R, Decidable (a < b)]

theorem Draws.skip_skip (rng : Draws R) (a b : Nat) : (rng.skip a).skip b = rng.skip (a + b) := by
  funext j
  simp only [Draws.skip]
  congr 1
  omega

theorem Draws.skip_zero (rng : Draws R) : rng.skip 0 = rng := by
  funext j
  simp [Draws.skip]

theorem fill_sphere_snd (k i : Nat) (sphere : List R) (rng : Draws R) :
    (fill_sphere k i sphere rng).2 = rng.skip k := by
  induction k generalizing i sphere rng with
  | zero => simp [fill_sphere, Draws.skip_zero]
  | succ k ih => simp [fill_sphere, ih, Draws.skip_skip, Nat.add_comm]

theorem fill_sphere_length (k i : Nat) (sphere : List R) (rng : Draws R) :
    (fill_sphere k i sphere rng).1.length = sphere.length := by
  induction k generalizing i sphere rng with
  | zero => simp [fill_sphere]
  | succ k ih => simp [fill_sphere, ih]

theorem fill_sphere_getElem? (k i : Nat) (sphere : List R) (rng : Draws R) (j : Nat) :
    (fill_sphere k i sphere rng).1[j]? =
      if i ≤ j ∧ j < i + k ∧ j < sphere.length then some (rng (j - i)) else sphere[j]? := by
  induction k generalizing i sphere rng with
  | zero =>
    have : ¬ (i ≤ j ∧ j < i + 0 ∧ j < sphere.length) := by omega
    rw [if_neg this]
    rfl
  | succ k ih =>
    simp only [fill_sphere, ih, List.length_set, List.getElem?_set, Draws.skip]
    by_cases h1 : i + 1 ≤ j ∧ j < i + 1 + k ∧ j < sphere.length
    · have h2 : i ≤ j ∧ j < i + (k + 1) ∧ j < sphere.length := by omega
      have h3 : j - (i + 1) + 1 = j - i := by omega
      simp only [h1, h2, h3, and_self, if_true]
    · by_cases h4 : i = j
      · subst h4
        by_cases h5 : i < sphere.length
        · have h2 : i ≤ i ∧ i < i + (k + 1) ∧ i < sphere.length := by omega
          simp [h1, h2, h5]
        · have h2 : ¬ (i ≤ i ∧ i < i + (k + 1) ∧ i < sphere.length) := by omega
          have h6 : sphere.length ≤ i := by omega
          simp [h1, h2, h5, h6]
      · have h2 : ¬ (i ≤ j ∧ j < i + (k + 1) ∧ j < sphere.length) := by omega
        simp [h1, h2, h4]

/-- One pass of the filling loop over a vector of length `n` leaves exactly the
next `n` draws in it. -/
theorem fill_sphere_eq (n : Nat) (sphere : List R) (rng : Draws R) (h : sphere.length = n) :
    fill_sphere n 0 sphere rng = (trial_block rng n 0, rng.skip n) := by
  apply Prod.ext
  · apply List.ext_getElem?
    intro j
    rw [fill_sphere_getElem?]
    simp only [trial_block, List.getElem?_map, h]
    by_cases hj : j < n
    · simp [hj, List.getElem?_range hj]
    · have : n ≤ j := by omega
      simp [hj, List.getElem?_eq_none, h, this]
  · exact fill_sphere_snd n 0 sphere rng

theorem trial_block_length (rng : Draws R) (n k : Nat) : (trial_block rng n k).length = n := by
  simp [trial_block]

theorem trial_block_skip (rng : Draws R) (n k : Nat) :
    trial_block (rng.skip n) n k = trial_block rng n (k + 1) := by
  simp only [trial_block, Draws.skip]
  apply List.map_congr_left
  intro i _
  congr 1
  ring

theorem add_noise_snd (k i : Nat) (xs new_xs : List R) (rng : Draws R) :
    (add_noise k i xs new_xs rng).2 = rng.skip k := by
  induction k generalizing i new_xs rng with
  | zero => simp [add_noise, Draws.skip_zero]
  | succ k ih => simp [add_noise, ih, Draws.skip_skip, Nat.add_comm]

theorem add_noise_getElem? (k i : Nat) (xs new_xs : List R) (rng : Draws R) (j : Nat) :
    (add_noise k i xs new_xs rng).1[j]? =
      if i ≤ j ∧ j < i + k ∧ j < new_xs.length then some (xs.getD j 0 + rng (j - i))
      else new_xs[j]? := by
  induction k generalizing i new_xs rng with
  | zero =>
    have : ¬ (i ≤ j ∧ j < i + 0 ∧ j < new_xs.length) := by omega
    rw [if_neg this]
    rfl
  | succ k ih =>
    simp only [add_noise, ih, List.length_set, List.getElem?_set, Draws.skip]
    by_cases h1 : i + 1 ≤ j ∧ j < i + 1 + k ∧ j < new_xs.length
    · have h2 : i ≤ j ∧ j < i + (k + 1) ∧ j < new_xs.length := by omega
      have h3 : j - (i + 1) + 1 = j - i := by omega
      simp only [h1, h2, h3, and_self, if_true]
    · by_cases h4 : i = j
      · subst h4
        by_cases h5 : i < new_xs.length
        · have h2 : i ≤ i ∧ i < i + (k + 1) ∧ i < new_xs.length := by omega
          simp [h1, h2, h5]
        · have h2 : ¬ (i ≤ i ∧ i < i + (k + 1) ∧ i < new_xs.length) := by omega
          have h6 : new_xs.length ≤ i := by omega
          simp [h1, h2, h5, h6]
      · have h2 : ¬ (i ≤ j ∧ j < i + (k + 1) ∧ j < new_xs.length) := by omega
        simp [h1, h2, h4]

/-- One pass of the noise loop builds the candidate of the next block of draws
from the original `xs`. -/
theorem add_noise_eq (xs : List R) (rng : Draws R) :
    add_noise xs.length 0 xs xs rng = (noise_candidate xs rng 0, rng.skip xs.length) := by
  apply Prod.ext
  · apply List.ext_getElem?
    intro j
    rw [add_noise_getElem?]
    simp only [noise_candidate, List.getElem?_map]
    by_cases hj : j < xs.length
    · simp [hj, List.getElem?_range hj]
    · have : xs.length ≤ j := by omega
      simp [hj, List.getElem?_eq_none, this]
  · exact add_noise_snd xs.length 0 xs xs rng

theorem commit_noise_getElem? (k i : Nat) (xs new_xs : List R) (j : Nat) :
    (commit_noise k i xs new_xs)[j]? =
      if i ≤ j ∧ j < i + k ∧ j < xs.length then some (new_xs.getD j 0) else xs[j]? := by
  induction k generalizing i xs with
  | zero =>
    have : ¬ (i ≤ j ∧ j < i + 0 ∧ j < xs.length) := by omega
    rw [if_neg this]
    rfl
  | succ k ih =>
    simp only [commit_noise, ih, List.length_set, List.getElem?_set]
    by_cases h1 : i + 1 ≤ j ∧ j < i + 1 + k ∧ j < xs.length
    · have h2 : i ≤ j ∧ j < i + (k + 1) ∧ j < xs.length := by omega
      simp only [h1, h2, and_self, if_true]
    · by_cases h4 : i = j
      · subst h4
        by_cases h5 : i < xs.length
        · have h2 : i ≤ i ∧ i < i + (k + 1) ∧ i < xs.length := by omega
          simp [h1, h2, h5]
        · have h2 : ¬ (i ≤ i ∧ i < i + (k + 1) ∧ i < xs.length) := by omega
          have h6 : xs.length ≤ i := by omega
          simp [h1, h2, h5, h6]
      · have h2 : ¬ (i ≤ j ∧ j < i + (k + 1) ∧ j < xs.length) := by omega
        simp [h1, h2, h4]

/-- The copy-back loop leaves the candidate in `xs`. -/
theorem commit_noise_eq (xs new_xs : List R) (h : new_xs.length = xs.length) :
    commit_noise xs.length 0 xs new_xs = new_xs := by
  apply List.ext_getElem?
  intro j
  rw [commit_noise_getElem?]
  by_cases hj : j < xs.length
  · have hj2 : j < new_xs.length := by omega
    simp [hj, List.getD_eq_getElem?_getD, List.getElem?_eq_getElem hj2]
  · have h1 : xs.length ≤ j := by omega
    have h2 : new_xs.length ≤ j := by omega
    simp [hj, List.getElem?_eq_none, h1, h2]

theorem noise_candidate_length (xs : List R) (rng : Draws R) (k : Nat) :
    (noise_candidate xs rng k).length = xs.length := by
  simp [noise_candidate]

theorem noise_candidate_skip (xs : List R) (rng : Draws R) (k : Nat) :
    noise_candidate xs (rng.skip xs.length) k = noise_candidate xs rng (k + 1) := by
  simp only [noise_candidate, Draws.skip]
  apply List.map_congr_left
  intro i _
  congr 2
  ring

/-- The rejection loop of `random_n_sphere` returns within `fuel` trials
exactly when one of the first `fuel` blocks of draws is accepted, and then it
returns the first accepted block. -/
theorem random_n_sphere_loop_iff (fuel : Nat) (sphere : List R) (rng : Draws R) (n : Nat)
    (radius : R) (out : List R × Draws R) (h : sphere.length = n) :
    random_n_sphere_loop fuel sphere rng n radius = some out ↔
      ∃ k, k < fuel ∧ (∀ j, j < k → in_sphere (trial_block rng n j) radius = false) ∧
        in_sphere (trial_block rng n k) radius = true ∧
        out = (trial_block rng n k, rng.skip ((k + 1) * n)) := by
  induction fuel generalizing sphere rng with
  | zero => simp [random_n_sphere_loop]
  | succ fuel ih =>
    simp only [random_n_sphere_loop, fill_sphere_eq n sphere rng h]
    by_cases hacc : in_sphere (trial_block rng n 0) radius = true
    · simp only [hacc, if_true]
      constructor
      · intro hout
        refine ⟨0, by omega, by intro j hj; omega, hacc, ?_⟩
        simp only [Option.some.injEq] at hout
        simp [← hout]
      · rintro ⟨k, _, hrej, _, hout⟩
        have hk : k = 0 := by
          by_contra hne
          have := hrej 0 (by omega)
          rw [hacc] at this
          exact Bool.noConfusion this
        subst hk
        simp [hout]
    · simp only [Bool.not_eq_true] at hacc
      simp only [hacc, Bool.false_eq_true, if_false]
      rw [ih (trial_block rng n 0) (rng.skip n) (trial_block_length rng n 0)]
      constructor
      · rintro ⟨k, hk, hrej, hk2, hout⟩
        refine ⟨k + 1, by omega, ?_, ?_, ?_⟩
        · intro j hj
          cases j with
          | zero => exact hacc
          | succ j =>
            rw [← trial_block_skip]
            exact hrej j (by omega)
        · rw [← trial_block_skip]; exact hk2
        · have e : n + (k + 1) * n = (k + 1 + 1) * n := by ring
          rw [hout, trial_block_skip, Draws.skip_skip, e]
      · rintro ⟨k, hk, hrej, hk2, hout⟩
        cases k with
        | zero => rw [hacc] at hk2; exact Bool.noConfusion hk2
        | succ k =>
          refine ⟨k, by omega, ?_, ?_, ?_⟩
          · intro j hj
            rw [trial_block_skip]
            exact hrej (j + 1) (by omega)
          · rw [trial_block_skip]; exact hk2
          · have e : n + (k + 1) * n = (k + 1 + 1) * n := by ring
            rw [hout, trial_block_skip, Draws.skip_skip, e]

/-- The rejection loop of `white_noise` returns within `fuel` trials exactly
when one of the first `fuel` candidates is accepted, and then it leaves the
first accepted candidate in `xs`. -/
theorem white_noise_iff (fuel : Nat) (xs : List R) (rng : Draws R) (radius : R)
    (out : List R × Draws R) :
    white_noise fuel xs rng radius = some out ↔
      ∃ k, k < fuel ∧ (∀ j, j < k → in_sphere (noise_candidate xs rng j) radius = false) ∧
        in_sphere (noise_candidate xs rng k) radius = true ∧
        out = (noise_candidate xs rng k, rng.skip ((k + 1) * xs.length)) := by
  induction fuel generalizing rng with
  | zero => simp [white_noise]
  | succ fuel ih =>
    simp only [white_noise, add_noise_eq xs rng]
    by_cases hacc : in_sphere (noise_candidate xs rng 0) radius = true
    · simp only [hacc, if_true, commit_noise_eq xs _ (noise_candidate_length xs rng 0)]
      constructor
      · intro hout
        refine ⟨0, by omega, by intro j hj; omega, hacc, ?_⟩
        simp only [Option.some.injEq] at hout
        simp [← hout]
      · rintro ⟨k, _, hrej, _, hout⟩
        have hk : k = 0 := by
          by_contra hne
          have := hrej 0 (by omega)
          rw [hacc] at this
          exact Bool.noConfusion this
        subst hk
        simp [hout]
    · simp only [Bool.not_eq_true] at hacc
      simp only [hacc, Bool.false_eq_true, if_false]
      rw [ih (rng.skip xs.length)]
      constructor
      · rintro ⟨k, hk, hrej, hk2, hout⟩
        refine ⟨k + 1, by omega, ?_, ?_, ?_⟩
        · intro j hj
          cases j with
          | zero => exact hacc
          | succ j =>
            rw [← noise_candidate_skip]
            exact hrej j (by omega)
        · rw [← noise_candidate_skip]; exact hk2
        · have e : xs.length + (k + 1) * xs.length = (k + 1 + 1) * xs.length := by ring
          rw [hout, noise_candidate_skip, Draws.skip_skip, e]
      · rintro ⟨k, hk, hrej, hk2, hout⟩
        cases k with
        | zero => rw [hacc] at hk2; exact Bool.noConfusion hk2
        | succ k =>
          refine ⟨k, by omega, ?_, ?_, ?_⟩
          · intro j hj
            rw [noise_candidate_skip]
            exact hrej (j + 1) (by omega)
          · rw [noise_candidate_skip]; exact hk2
          · have e : xs.length + (k + 1) * xs.length = (k + 1 + 1) * xs.length := by ring
            rw [hout, noise_candidate_skip, Draws.skip_skip, e]

/-- Among the trials up to an accepted one there is a first accepted one. -/
theorem exists_first_accept (p : Nat → Bool) (k : Nat) (hk : p k = true) :
    ∃ m, m ≤ k ∧ (∀ j, j < m → p j = false) ∧ p m = true := by
  have hex : ∃ m, p m = true := ⟨k, hk⟩
  refine ⟨Nat.find hex, Nat.find_min' hex hk, ?_, Nat.find_spec hex⟩
  intro j hj
  have := Nat.find_min hex hj
  simpa using this

theorem random_n_sphere_isSome_iff (fuel : Nat) (rng : Draws R) (n : Nat) (radius : R) :
    (random_n_sphere fuel rng n radius).isSome = true ↔
      ∃ k, k < fuel ∧ in_sphere (trial_block rng n k) radius = true := by
  rw [Option.isSome_iff_exists]
  constructor
  · rintro ⟨out, hout⟩
    obtain ⟨k, hk, _, hacc, _⟩ :=
      (random_n_sphere_loop_iff fuel _ rng n radius out (List.length_replicate n 0)).1 hout
    exact ⟨k, hk, hacc⟩
  · rintro ⟨k, hk, hacc⟩
    obtain ⟨m, hm, hrej, hacc2⟩ :=
      exists_first_accept (fun j => in_sphere (trial_block rng n j) radius) k hacc
    exact ⟨_, (random_n_sphere_loop_iff fuel _ rng n radius _ (List.length_replicate n 0)).2
      ⟨m, by omega, hrej, hacc2, rfl⟩⟩

theorem white_noise_isSome_iff (fuel : Nat) (xs : List R) (rng : Draws R) (radius : R) :
    (white_noise fuel xs rng radius).isSome = true ↔
      ∃ k, k < fuel ∧ in_sphere (noise_candidate xs rng k) radius = true := by
  rw [Option.isSome_iff_exists]
  constructor
  · rintro ⟨out, hout⟩
    obtain ⟨k, hk, _, hacc, _⟩ := (white_noise_iff fuel xs rng radius out).1 hout
    exact ⟨k, hk, hacc⟩
  · rintro ⟨k, hk, hacc⟩
    obtain ⟨m, hm, hrej, hacc2⟩ :=
      exists_first_accept (fun j => in_sphere (noise_candidate xs rng j) radius) k hacc
    exact ⟨_, (white_noise_iff fuel xs rng radius _).2 ⟨m, by omega, hrej, hacc2, rfl⟩⟩

theorem noise_candidate_eq_zipWith (xs : List R) (rng : Draws R) (k : Nat) :
    noise_candidate xs rng k
      = List.zipWith (fun x e => x + e) xs (trial_block rng xs.length k) := by
  apply List.ext_getElem?
  intro j
  simp only [noise_candidate, trial_block, List.getElem?_map, List.getElem?_zipWith]
  by_cases hj : j < xs.length
  · simp [List.getElem?_range hj, List.getElem?_eq_getElem hj]
  · have : xs.length ≤ j := by omega
    simp [List.getElem?_eq_none, this]

theorem random_n_sphere_eq_some_iff (fuel : Nat) (rng : Draws R) (n : Nat) (radius : R)
    (out : List R × Draws R) :
    random_n_sphere fuel rng n radius = some out ↔
      ∃ k, k < fuel ∧ (∀ j, j < k → in_sphere (trial_block rng n j) radius = false) ∧
        in_sphere (trial_block rng n k) radius = true ∧
        out = (trial_block rng n k, rng.skip ((k + 1) * n)) :=
  random_n_sphere_loop_iff fuel _ rng n radius out (List.length_replicate n 0)

end sampler_lemmas

section sampler_exact_lemmas

variable {R : Type} [LinearOrderedCommRing R]

/-- The accumulator of `in_sphere` after the loop is the start value plus the
sum of the squares. -/
theorem foldl_squares (v : List R) (s : R) :
    v.foldl (fun sum x => sum + x * x) s = s + sum_squares v := by
  induction v generalizing s with
  | nil => simp [sum_squares]
  | cons x v ih =>
    simp only [List.foldl_cons, ih, sum_squares, List.map_cons, List.sum_cons]
    ring

theorem in_sphere_eq (v : List R) (radius : R) :
    in_sphere v radius = decide (sum_squares v < radius * radius) := by
  simp [in_sphere, foldl_squares]

/-- The accumulator of `euclidean_distance` after `k` more iterations. -/
theorem euclidean_loop_eq (k i : Nat) (xs ys : List R) (s : R) :
    euclidean_loop k i xs ys s
      = s + Finset.sum (Finset.range k)
          (fun j => (xs.getD (i + j) 0 - ys.getD (i + j) 0) ^ 2) := by
  induction k generalizing i s with
  | zero => simp [euclidean_loop]
  | succ k ih =>
    rw [euclidean_loop, ih, Finset.sum_range_succ']
    have e : ∀ j, i + 1 + j = i + (j + 1) := by intro j; omega
    simp only [e, Nat.add_zero]
    ring

theorem euclidean_distance_eq (sqrt : R → R) (xs ys : List R) :
    euclidean_distance sqrt xs ys
      = sqrt (Finset.sum (Finset.range (min xs.length ys.length))
          (fun j => (xs.getD j 0 - ys.getD j 0) ^ 2)) := by
  simp [euclidean_distance, euclidean_loop_eq]

end sampler_exact_lemmas

/-! ## Claims about the hypersphere sampler -/

section sampler_claims

variable {R : Type} [Zero R] [Add R] [Sub R] [Mul R] [LT R] [∀ a b : R, Decidable (a < b)]

/-- C1: for every dimension `n`, radius and stream of draws, whenever the
rejection loop of `random_n_sphere` returns, the returned vector has exactly
`n` components and satisfies `in_sphere` for that radius (in particular for
every radius `r > 0`). -/
theorem random_n_sphere_in_sphere (fuel : Nat) (rng : Draws R) (n : Nat) (radius : R)
    (v : List R) (h : (random_n_sphere fuel rng n radius).map Prod.fst = some v) :
    v.length = n ∧ in_sphere v radius = true := by
  obtain ⟨out, hsome, hv⟩ := Option.map_eq_some'.1 h
  obtain ⟨k, _, _, hacc, hout⟩ :=
    (random_n_sphere_loop_iff fuel _ rng n radius out (List.length_replicate n 0)).1 hsome
  subst hout hv
  exact ⟨trial_block_length rng n k, hacc⟩

/-- Witness for C1: with radius 2 in dimension 2 the stream `2, 2, -1, 0, ...`
has its first block rejected and its second block returned. -/
theorem random_n_sphere_in_sphere_witness :
    ([-1, 0] : List ℤ).length = 2 ∧ in_sphere ([-1, 0] : List ℤ) 2 = true :=
  random_n_sphere_in_sphere 3 (fun i => if i < 2 then 2 else if i = 2 then -1 else 0) 2 2
    [-1, 0] (by decide)

/-- C2: for every vector `xs`, radius and stream of noise draws, whenever
`white_noise` returns, the vector it leaves in `xs` has the length of the
original and satisfies `in_sphere` for that radius (in particular when the
original was inside the sphere). -/
theorem white_noise_in_sphere (fuel : Nat) (xs : List R) (rng : Draws R) (radius : R)
    (v : List R) (h : (white_noise fuel xs rng radius).map Prod.fst = some v) :
    v.length = xs.length ∧ in_sphere v radius = true := by
  obtain ⟨out, hsome, hv⟩ := Option.map_eq_some'.1 h
  obtain ⟨k, _, _, hacc, hout⟩ := (white_noise_iff fuel xs rng radius out).1 hsome
  subst hout hv
  exact ⟨noise_candidate_length xs rng k, hacc⟩

/-- Witness for C2: `[1, 0]` lies in the sphere of radius 2; the noise
`2, 2` is rejected and the noise `-1, -1` is committed. -/
theorem white_noise_in_sphere_witness :
    ([0, -1] : List ℤ).length = ([1, 0] : List ℤ).length ∧
      in_sphere ([0, -1] : List ℤ) 2 = true :=
  white_noise_in_sphere 3 [1, 0] (fun i => if i < 2 then 2 else -1) 2 [0, -1] (by decide)

/-- C3, refuted as stated: on the constant stream `9/10` in dimension 2 with
radius 1 every trial of `random_n_sphere` is rejected, and on the constant
noise `1` every candidate of `white_noise` for `[0]` with radius 1 is rejected;
however many trials are watched, neither loop has stopped. -/
theorem rejection_loops_unbounded :
    (∀ fuel : Nat, random_n_sphere fuel (fun _ => (9 / 10 : ℚ)) 2 1 = none) ∧
    (∀ fuel : Nat, white_noise fuel [(0 : ℚ)] (fun _ => 1) 1 = none) := by
  constructor
  · intro fuel
    rw [← Option.not_isSome_iff_eq_none, random_n_sphere_isSome_iff]
    rintro ⟨k, _, hacc⟩
    norm_num [trial_block, List.range_succ, in_sphere] at hacc
  · intro fuel
    rw [← Option.not_isSome_iff_eq_none, white_noise_isSome_iff]
    rintro ⟨k, _, hacc⟩
    norm_num [noise_candidate, List.range_succ, in_sphere] at hacc

/-- C3, amended: the rejection loops of `random_n_sphere` and `white_noise`
have no retry bound and no failure outcome.  Each has returned within `fuel`
trials exactly when one of its first `fuel` candidates satisfies `in_sphere`,
and is still retrying otherwise. -/
theorem rejection_loops_stop_iff_accepted (fuel : Nat) (rng : Draws R) (n : Nat) (xs : List R)
    (radius : R) :
    ((random_n_sphere fuel rng n radius).isSome = true ↔
        ∃ k, k < fuel ∧ in_sphere (trial_block rng n k) radius = true) ∧
    (random_n_sphere fuel rng n radius = none ↔
        ∀ k, k < fuel → in_sphere (trial_block rng n k) radius = false) ∧
    ((white_noise fuel xs rng radius).isSome = true ↔
        ∃ k, k < fuel ∧ in_sphere (noise_candidate xs rng k) radius = true) ∧
    (white_noise fuel xs rng radius = none ↔
        ∀ k, k < fuel → in_sphere (noise_candidate xs rng k) radius = false) := by
  refine ⟨random_n_sphere_isSome_iff fuel rng n radius, ?_,
    white_noise_isSome_iff fuel xs rng radius, ?_⟩
  · rw [← Option.not_isSome_iff_eq_none, random_n_sphere_isSome_iff]
    simp
  · rw [← Option.not_isSome_iff_eq_none, white_noise_isSome_iff]
    simp

/-- C8: `white_noise` returns within `fuel` trials exactly when one of the
first `fuel` candidates is accepted, and what it leaves in `xs` is the original
`xs` plus, component by component, the noise block of the first trial whose
candidate satisfies `in_sphere`: every candidate is the original `xs` plus the
block of its own trial, whatever the rejected trials before it drew. -/
theorem white_noise_first_accepted (fuel : Nat) (xs : List R) (rng : Draws R) (radius : R)
    (out : List R × Draws R) :
    white_noise fuel xs rng radius = some out ↔
      ∃ k, k < fuel ∧
        (∀ j, j < k → in_sphere
          (List.zipWith (fun x e => x + e) xs (trial_block rng xs.length j)) radius = false) ∧
        in_sphere
          (List.zipWith (fun x e => x + e) xs (trial_block rng xs.length k)) radius = true ∧
        out = (List.zipWith (fun x e => x + e) xs (trial_block rng xs.length k),
          rng.skip ((k + 1) * xs.length)) := by
  rw [white_noise_iff]
  simp only [noise_candidate_eq_zipWith]

end sampler_claims

section sampler_exact_claims

variable {R : Type} [LinearOrderedCommRing R]

end sampler_exact_claims

/-! ## Lemmas about the location map -/

section species_lemmas

variable {P : Type} [DecidableEq P]

theorem find_entry_eq_none (l : List (P × Int)) (p : P) :
    find_entry l p = none ↔ p ∉ l.map Prod.fst := by
  induction l with
  | nil => simp [find_entry]
  | cons e l ih =>
    by_cases he : e.1 = p
    · simp [find_entry, he]
    · have hne : ¬ p = e.1 := fun h => he h.symm
      simp [find_entry, he, hne, ih]

theorem locations.mem_keys_iff (m : locations P) (p : P) :
    p ∈ m.keys ↔ ∃ t, m.find p = some t := by
  have h := find_entry_eq_none m.entries p
  unfold locations.find locations.keys
  constructor
  · intro hp
    cases hf : find_entry m.entries p with
    | none => exact absurd hp (h.1 hf)
    | some t => exact ⟨t, rfl⟩
  · rintro ⟨t, ht⟩
    by_contra hp
    rw [h.2 hp] at ht
    exact Option.noConfusion ht

theorem locations.keys_assign (m : locations P) (p : P) (gid : Int) :
    (m.assign p gid).keys = m.keys := by
  unfold locations.keys locations.assign
  simp only
  rw [List.map_map]
  apply List.map_congr_left
  intro e _
  by_cases he : e.1 = p <;> simp [he]

theorem find_entry_assign (l : List (P × Int)) (p q : P) (gid : Int) :
    find_entry (l.map (fun e => if e.1 = p then (e.1, gid) else e)) q
      = if q = p then (find_entry l p).map (fun _ => gid) else find_entry l q := by
  induction l with
  | nil => simp [find_entry]
  | cons e l ih =>
    simp only [List.map_cons, find_entry]
    by_cases he : e.1 = p
    · by_cases hq : q = p
      · subst hq
        simp [he]
      · have : ¬ e.1 = q := fun h => hq (h.symm.trans he)
        have hpq : ¬ p = q := fun h => hq h.symm
        simp [he, hq, hpq, ih]
    · by_cases hq : q = p
      · subst hq
        simp [he, ih]
      · by_cases heq : e.1 = q
        · simp [he, hq, heq]
        · simp [he, hq, heq, ih]

theorem locations.find_assign (m : locations P) (p q : P) (gid : Int) :
    (m.assign p gid).find q = if q = p then (m.find p).map (fun _ => gid) else m.find q :=
  find_entry_assign m.entries p q gid

theorem countP_assign_lt (l : List (P × Int)) (p : P) (gid : Int) (hg : gid ≠ unassigned)
    (hp : find_entry l p = some unassigned) :
    (l.map (fun e => if e.1 = p then (e.1, gid) else e)).countP
        (fun e => decide (e.2 = unassigned)) + 1
      ≤ l.countP (fun e => decide (e.2 = unassigned)) := by
  have hle : ∀ l' : List (P × Int),
      (l'.map (fun e => if e.1 = p then (e.1, gid) else e)).countP
          (fun e => decide (e.2 = unassigned))
        ≤ l'.countP (fun e => decide (e.2 = unassigned)) := by
    intro l'
    induction l' with
    | nil => simp
    | cons e l' ih =>
      simp only [List.map_cons, List.countP_cons]
      by_cases he : e.1 = p
      · simp only [he, if_true, decide_eq_true_eq, hg, if_false]
        omega
      · simp only [he, if_false]
        omega
  induction l with
  | nil => simp [find_entry] at hp
  | cons e l ih =>
    simp only [List.map_cons, List.countP_cons]
    by_cases he : e.1 = p
    · have h2 : e.2 = unassigned := by simpa [find_entry, he] using hp
      have := hle l
      simp only [he, if_true, decide_eq_true_eq, hg, if_false, h2]
      omega
    · have hp2 : find_entry l p = some unassigned := by simpa [find_entry, he] using hp
      have := ih hp2
      simp only [he, if_false]
      omega

theorem locations.pending_assign (m : locations P) (p : P) (gid : Int) (hg : gid ≠ unassigned)
    (hp : m.find p = some unassigned) : (m.assign p gid).pending + 1 ≤ m.pending :=
  countP_assign_lt m.entries p gid hg hp

theorem locations.pending_pos (m : locations P) (p : P) (hp : m.find p = some unassigned) :
    0 < m.pending := by
  have := m.pending_assign p 0 (by decide) hp
  omega

theorem locations.pending_le_length (m : locations P) : m.pending ≤ m.entries.length :=
  List.countP_le_length _

theorem some_ne_unassigned (gid : Int) (hg : gid ≠ unassigned) :
    (some gid : Option Int) ≠ some unassigned := by
  intro h
  exact hg (Option.some.inj h)

theorem locations.extends_to_refl (gid : Int) (m : locations P) :
    locations.extends_to gid m m :=
  ⟨rfl, fun _ _ => rfl, fun _ h => Or.inl h, Nat.le_refl _⟩

theorem locations.extends_to_trans (gid : Int) (hg : gid ≠ unassigned) (m1 m2 m3 : locations P)
    (h12 : locations.extends_to gid m1 m2) (h23 : locations.extends_to gid m2 m3) :
    locations.extends_to gid m1 m3 := by
  obtain ⟨k12, s12, u12, c12⟩ := h12
  obtain ⟨k23, s23, u23, c23⟩ := h23
  refine ⟨k23.trans k12, ?_, ?_, Nat.le_trans c23 c12⟩
  · intro q hq
    have h2 : m2.find q = m1.find q := s12 q hq
    rw [s23 q (by rw [h2]; exact hq), h2]
  · intro q hq
    rcases u12 q hq with h | h
    · exact u23 q h
    · right
      rw [s23 q (by rw [h]; exact some_ne_unassigned gid hg), h]

theorem locations.extends_to_assign (gid : Int) (hg : gid ≠ unassigned) (m : locations P) (p : P)
    (hp : m.find p = some unassigned) : locations.extends_to gid m (m.assign p gid) := by
  refine ⟨m.keys_assign p gid, ?_, ?_, ?_⟩
  · intro q hq
    have hqp : q ≠ p := by
      intro h
      subst h
      exact hq hp
    rw [locations.find_assign, if_neg hqp]
  · intro q hq
    rw [locations.find_assign]
    by_cases hqp : q = p
    · right
      rw [if_pos hqp, hp]
      rfl
    · left
      rw [if_neg hqp]
      exact hq
  · have := m.pending_assign p gid hg hp
    omega

/-- A settled location stays as it is along an extension. -/
theorem locations.extends_to_settled (gid : Int) (m1 m2 : locations P)
    (h : locations.extends_to gid m1 m2) (x : P) (hx : m1.find x ≠ some unassigned) :
    m2.find x ≠ some unassigned := by
  rw [h.2.1 x hx]
  exact hx

theorem flooded_of_settled (n : network P) (S : List P) (gid : Int) (hg : gid ≠ unassigned)
    (m : locations P) (hS : ∀ x, x ∈ S → m.find x ≠ some unassigned) : flooded n S gid m m := by
  refine ⟨locations.extends_to_refl gid m, hS, ?_, ?_⟩
  · intro q hq hq2
    rw [hq] at hq2
    exact absurd hq2.symm (some_ne_unassigned gid hg)
  · intro q hq hq2
    rw [hq] at hq2
    exact absurd hq2.symm (some_ne_unassigned gid hg)

theorem flooded_append (n : network P) (S1 S2 : List P) (gid : Int) (hg : gid ≠ unassigned)
    (m1 m2 m3 : locations P) (h12 : flooded n S1 gid m1 m2) (h23 : flooded n S2 gid m2 m3) :
    flooded n (S1 ++ S2) gid m1 m3 := by
  obtain ⟨e12, seed12, cl12, cn12⟩ := h12
  obtain ⟨e23, seed23, cl23, cn23⟩ := h23
  refine ⟨locations.extends_to_trans gid hg m1 m2 m3 e12 e23, ?_, ?_, ?_⟩
  · intro x hx
    rcases List.mem_append.1 hx with h | h
    · exact locations.extends_to_settled gid m2 m3 e23 x (seed12 x h)
    · exact seed23 x h
  · intro q hq hq3 x hx
    rcases e12.2.2.1 q hq with h | h
    · exact cl23 q h hq3 x hx
    · exact locations.extends_to_settled gid m2 m3 e23 x (cl12 q hq h x hx)
  · intro q hq hq3
    rcases e12.2.2.1 q hq with h | h
    · obtain ⟨x, hx, hxk, hc⟩ := cn23 q h hq3
      rw [e12.1] at hxk hc
      exact ⟨x, List.mem_append.2 (Or.inr hx), hxk, hc⟩
    · obtain ⟨x, hx, hxk, hc⟩ := cn12 q hq h
      exact ⟨x, List.mem_append.2 (Or.inl hx), hxk, hc⟩

/-- The loop over the neighbours inside `m_grouping`, given that the recursive
calls flood. -/
theorem flooded_foldl (n : network P) (gid : Int) (hg : gid ≠ unassigned) (d : Nat)
    (ih : ∀ (p : P) (m : locations P), m.find p = some unassigned → m.pending ≤ d →
      flooded n [p] gid m (m_grouping n d p gid m))
    (L : List P) (acc : locations P) (hacc : acc.pending ≤ d) :
    flooded n L gid acc
      (L.foldl (fun acc q =>
        if acc.find q = some unassigned then m_grouping n d q gid acc else acc) acc) := by
  induction L generalizing acc with
  | nil => exact flooded_of_settled n [] gid hg acc (by intro x hx; cases hx)
  | cons x L ihL =>
    simp only [List.foldl_cons]
    by_cases hx : acc.find x = some unassigned
    · simp only [hx, if_true]
      have h1 := ih x acc hx hacc
      have h2 := ihL (m_grouping n d x gid acc) (Nat.le_trans h1.1.2.2.2 hacc)
      exact flooded_append n [x] L gid hg _ _ _ h1 h2
    · simp only [hx, if_false]
      have h1 := flooded_of_settled n [x] gid hg acc (by
        intro y hy
        rw [List.mem_singleton.1 hy]
        exact hx)
      exact flooded_append n [x] L gid hg _ _ _ h1 (ihL acc hacc)

/-- The flood of one group: `m_grouping` tags `p`, everything it tags is
connected to `p`, and every location it tags has all its neighbours settled. -/
theorem m_grouping_flooded (n : network P) (gid : Int) (hg : gid ≠ unassigned) (d : Nat)
    (p : P) (m : locations P) (hp : m.find p = some unassigned) (hd : m.pending ≤ d) :
    flooded n [p] gid m (m_grouping n d p gid m) := by
  induction d generalizing p m with
  | zero =>
    have := m.pending_pos p hp
    omega
  | succ d ih =>
    have hpk : p ∈ m.keys := (m.mem_keys_iff p).2 ⟨_, hp⟩
    have e1 := locations.extends_to_assign gid hg m p hp
    have hd1 : (m.assign p gid).pending ≤ d := by
      have := m.pending_assign p gid hg hp
      omega
    have hf := flooded_foldl n gid hg d ih (n.neighbors p) (m.assign p gid) hd1
    have hfind1 : (m.assign p gid).find p = some gid := by
      rw [locations.find_assign, if_pos rfl, hp]
      rfl
    have hne1 : (m.assign p gid).find p ≠ some unassigned := by
      rw [hfind1]
      exact some_ne_unassigned gid hg
    obtain ⟨e2, seed2, cl2, cn2⟩ := hf
    have hother : ∀ q, q ≠ p → (m.assign p gid).find q = m.find q := by
      intro q hq
      rw [locations.find_assign, if_neg hq]
    show flooded n [p] gid m
      ((n.neighbors p).foldl (fun acc q =>
        if acc.find q = some unassigned then m_grouping n d q gid acc else acc)
        (m.assign p gid))
    refine ⟨locations.extends_to_trans gid hg _ _ _ e1 e2, ?_, ?_, ?_⟩
    · intro x hx
      rw [List.mem_singleton.1 hx]
      exact locations.extends_to_settled gid _ _ e2 p hne1
    · intro q hq hq2 x hx
      by_cases hqp : q = p
      · subst hqp
        exact seed2 x hx
      · exact cl2 q (by rw [hother q hqp]; exact hq) hq2 x hx
    · intro q hq hq2
      refine ⟨p, List.mem_singleton.2 rfl, hpk, ?_⟩
      by_cases hqp : q = p
      · subst hqp
        exact Relation.ReflTransGen.refl
      · obtain ⟨x, hx, hxk, hc⟩ := cn2 q (by rw [hother q hqp]; exact hq) hq2
        rw [m.keys_assign p gid] at hxk hc
        exact Relation.ReflTransGen.head ⟨hpk, hxk, hx⟩ hc

theorem natCast_ne_unassigned (g : Nat) : (g : Int) ≠ unassigned := by
  unfold unassigned
  omega

theorem some_natCast_ne_unassigned (g : Nat) : (some (g : Int) : Option Int) ≠ some unassigned :=
  some_ne_unassigned _ (natCast_ne_unassigned g)

theorem connected_in_symm (K : List P) (n : network P) (a b : P) (h : connected_in K n a b) :
    connected_in K n b a := by
  have hs : Symmetric (adjacent_in K n) := by
    intro x y hxy
    exact ⟨hxy.2.1, hxy.1, n.symm x y hxy.2.2⟩
  exact Relation.ReflTransGen.symmetric hs h

/-- Flooding a new group from an unassigned location keeps the invariant of
the scan, with one more group. -/
theorem scan_invariant_step (n : network P) (K : List P) (g d : Nat) (m : locations P) (p : P)
    (hinv : scan_invariant n K g m) (hp : m.find p = some unassigned) (hd : m.pending ≤ d) :
    scan_invariant n K (g + 1) (m_grouping n d p (g : Int) m) := by
  have hg := natCast_ne_unassigned g
  obtain ⟨⟨hk, hsame, hun, _⟩, seed, cl, cn⟩ := m_grouping_flooded n (g : Int) hg d p m hp hd
  obtain ⟨i1, i2, i3, i4, i5⟩ := hinv
  have hpK : p ∈ K := by
    rw [← i1]
    exact (m.mem_keys_iff p).2 ⟨_, hp⟩
  -- a location that was unassigned and is settled now carries the new tag
  have hnew : ∀ q, m.find q = some unassigned →
      (m_grouping n d p (g : Int) m).find q ≠ some unassigned →
      (m_grouping n d p (g : Int) m).find q = some (g : Int) := by
    intro q hq hq2
    rcases hun q hq with h | h
    · exact absurd h hq2
    · exact h
  -- a location that was settled carries an old tag
  have hold : ∀ q, q ∈ K → m.find q ≠ some unassigned →
      ∃ t : Nat, t < g ∧ m.find q = some (t : Int) := by
    intro q hqK hq
    rcases i2 q hqK with h | h
    · exact absurd h hq
    · exact h
  refine ⟨hk.trans i1, ?_, ?_, ?_, ?_⟩
  · intro q hqK
    by_cases hq : m.find q = some unassigned
    · rcases hun q hq with h | h
      · exact Or.inl h
      · exact Or.inr ⟨g, Nat.lt_succ_self g, h⟩
    · obtain ⟨t, ht, hqt⟩ := hold q hqK hq
      exact Or.inr ⟨t, Nat.lt_succ_of_lt ht, by rw [hsame q hq, hqt]⟩
  · intro a x haK hxK hx ha2
    by_cases ha : m.find a = some unassigned
    · have hag := hnew a ha ha2
      have hx2 := cl a ha hag x hx
      by_cases hxu : m.find x = some unassigned
      · rw [hnew x hxu hx2, hag]
      · have := i3 x a hxK haK (n.symm a x hx) hxu
        rw [ha] at this
        exact absurd this.symm hxu
    · have hxa := i3 a x haK hxK hx ha
      have hxu : m.find x ≠ some unassigned := by
        rw [hxa]
        exact ha
      rw [hsame a ha, hsame x hxu, hxa]
  · intro a b haK hbK ha2 hab
    by_cases ha : m.find a = some unassigned
    · have hag := hnew a ha ha2
      by_cases hb : m.find b = some unassigned
      · have hbg := hnew b hb (by rw [← hab]; exact ha2)
        obtain ⟨x, hx, _, hca⟩ := cn a ha hag
        obtain ⟨y, hy, _, hcb⟩ := cn b hb hbg
        rw [List.mem_singleton.1 hx, i1] at hca
        rw [List.mem_singleton.1 hy, i1] at hcb
        exact Relation.ReflTransGen.trans (connected_in_symm K n p a hca) hcb
      · obtain ⟨t, ht, hbt⟩ := hold b hbK hb
        rw [hag, hsame b hb, hbt] at hab
        have : (g : Int) = (t : Int) := Option.some.inj hab
        omega
    · obtain ⟨t, ht, hat⟩ := hold a haK ha
      by_cases hb : m.find b = some unassigned
      · have hbg := hnew b hb (by rw [← hab]; exact ha2)
        rw [hbg, hsame a ha, hat] at hab
        have : (t : Int) = (g : Int) := Option.some.inj hab
        omega
      · rw [hsame a ha, hsame b hb] at hab
        exact i4 a b haK hbK ha hab
  · intro t ht
    by_cases htg : t = g
    · subst htg
      exact ⟨p, hpK, hnew p hp (seed p (List.mem_singleton.2 rfl))⟩
    · obtain ⟨q, hqK, hq⟩ := i5 t (by omega)
      refine ⟨q, hqK, ?_⟩
      rw [hsame q (by rw [hq]; exact some_natCast_ne_unassigned t), hq]

/-- The scan of `up_groups` keeps its invariant, never unsettles a location and
settles every location it visits. -/
theorem up_groups_scan_spec (n : network P) (K : List P) (d : Nat) (rest : List P)
    (m : locations P) (g : Nat) (hinv : scan_invariant n K g m) (hd : m.pending ≤ d) :
    scan_invariant n K (up_groups_scan n d rest m g).2 (up_groups_scan n d rest m g).1 ∧
    (∀ q, m.find q ≠ some unassigned →
      (up_groups_scan n d rest m g).1.find q ≠ some unassigned) ∧
    (∀ q, q ∈ rest → (up_groups_scan n d rest m g).1.find q ≠ some unassigned) := by
  induction rest generalizing m g with
  | nil => exact ⟨hinv, fun _ h => h, by intro q hq; cases hq⟩
  | cons p rest ih =>
    by_cases hp : m.find p = some unassigned
    · simp only [up_groups_scan, hp, if_true]
      have hg := natCast_ne_unassigned g
      have hfl := m_grouping_flooded n (g : Int) hg d p m hp hd
      have hstep := scan_invariant_step n K g d m p hinv hp hd
      obtain ⟨r1, r2, r3⟩ := ih (m_grouping n d p (g : Int) m) (g + 1) hstep
        (Nat.le_trans hfl.1.2.2.2 hd)
      refine ⟨r1, ?_, ?_⟩
      · intro q hq
        exact r2 q (locations.extends_to_settled _ _ _ hfl.1 q hq)
      · intro q hq
        rcases List.mem_cons.1 hq with h | h
        · subst h
          exact r2 q (hfl.2.1 q (List.mem_singleton.2 rfl))
        · exact r3 q h
    · simp only [up_groups_scan, hp, if_false]
      obtain ⟨r1, r2, r3⟩ := ih m g hinv hd
      refine ⟨r1, r2, ?_⟩
      intro q hq
      rcases List.mem_cons.1 hq with h | h
      · subst h
        exact r2 q hp
      · exact r3 q h

theorem locations.keys_clear (m : locations P) : m.clear.keys = m.keys := by
  unfold locations.keys locations.clear
  simp only
  rw [List.map_map]
  rfl

theorem find_entry_clear (l : List (P × Int)) (p : P) :
    find_entry (l.map (fun e => (e.1, unassigned))) p
      = (find_entry l p).map (fun _ => unassigned) := by
  induction l with
  | nil => simp [find_entry]
  | cons e l ih =>
    by_cases he : e.1 = p
    · simp [find_entry, he]
    · simp [find_entry, he, ih]

theorem locations.find_clear (m : locations P) (p : P) (hp : p ∈ m.keys) :
    m.clear.find p = some unassigned := by
  obtain ⟨t, ht⟩ := (m.mem_keys_iff p).1 hp
  have := find_entry_clear m.entries p
  unfold locations.find at ht
  unfold locations.find locations.clear
  simp only
  rw [this, ht]
  rfl

theorem scan_invariant_clear (n : network P) (m : locations P) :
    scan_invariant n m.keys 0 m.clear := by
  refine ⟨m.keys_clear, ?_, ?_, ?_, ?_⟩
  · intro p hp
    exact Or.inl (m.find_clear p hp)
  · intro p x hp _ _ h
    exact absurd (m.find_clear p hp) h
  · intro p q hp _ h _
    exact absurd (m.find_clear p hp) h
  · intro t ht
    omega

/-- What `up_groups` establishes: the invariant of the scan holds for the map
and the count it leaves, and every occupied location is settled. -/
theorem up_groups_spec (s : species P) (n : network P) :
    scan_invariant n s.m_locations.keys (s.up_groups n).2 (s.up_groups n).1.m_locations ∧
    (∀ q, q ∈ s.m_locations.keys →
      (s.up_groups n).1.m_locations.find q ≠ some unassigned) := by
  have h := up_groups_scan_spec n s.m_locations.keys s.m_locations.clear.entries.length
    s.m_locations.clear.keys s.m_locations.clear 0 (scan_invariant_clear n s.m_locations)
    s.m_locations.clear.pending_le_length
  refine ⟨h.1, ?_⟩
  intro q hq
  exact h.2.2 q (by rw [s.m_locations.keys_clear]; exact hq)

/-- Connected occupied locations carry the same tag after `up_groups`. -/
theorem up_groups_connected_same (s : species P) (n : network P) (p q : P)
    (hc : s.connected n p q) (hp : p ∈ s.m_locations.keys) :
    q ∈ s.m_locations.keys ∧
    (s.up_groups n).1.m_locations.find q = (s.up_groups n).1.m_locations.find p := by
  obtain ⟨⟨_, _, i3, _, _⟩, hset⟩ := up_groups_spec s n
  induction hc with
  | refl => exact ⟨hp, rfl⟩
  | tail _ hab ih =>
    obtain ⟨haK, hbK, hb⟩ := hab
    refine ⟨hbK, ?_⟩
    rw [i3 _ _ haK hbK hb (hset _ haK)]
    exact ih.2

theorem up_groups_tag (s : species P) (n : network P) (p : P) (hp : p ∈ s.m_locations.keys) :
    ∃ t : Nat, t < (s.up_groups n).2 ∧
      (s.up_groups n).1.m_locations.find p = some (t : Int) := by
  obtain ⟨⟨_, i2, _, _, _⟩, hset⟩ := up_groups_spec s n
  rcases i2 p hp with h | h
  · exact absurd h (hset p hp)
  · exact h

theorem up_groups_card_components (s : species P) (n : network P) :
    Nat.card (s.components n) = (s.up_groups n).2 := by
  obtain ⟨⟨_, _, _, i4, i5⟩, hset⟩ := up_groups_spec s n
  have hval : ∀ a : s.occupied, ∃ t : Nat, t < (s.up_groups n).2 ∧
      (s.up_groups n).1.m_locations.find a.1 = some (t : Int) :=
    fun a => up_groups_tag s n a.1 a.2
  let f : s.occupied → Fin (s.up_groups n).2 :=
    fun a => ⟨(hval a).choose, (hval a).choose_spec.1⟩
  have hf : ∀ a : s.occupied,
      (s.up_groups n).1.m_locations.find a.1 = some (((f a : Fin _) : Nat) : Int) :=
    fun a => (hval a).choose_spec.2
  have hinj : ∀ a b : s.occupied,
      (s.up_groups n).1.m_locations.find a.1 = (s.up_groups n).1.m_locations.find b.1 →
      f a = f b := by
    intro a b hab
    rw [hf a, hf b] at hab
    apply Fin.ext
    have := Option.some.inj hab
    omega
  have hresp : ∀ a b : s.occupied, s.connected_rel n a b → f a = f b := by
    intro a b hab
    exact hinj a b (up_groups_connected_same s n a.1 b.1 hab a.2).2.symm
  apply Nat.card_eq_of_equiv_fin
  refine Equiv.ofBijective (Quot.lift f hresp) ⟨?_, ?_⟩
  · intro x y
    induction x using Quot.ind with
    | mk a =>
      induction y using Quot.ind with
      | mk b =>
        intro hxy
        apply Quot.sound
        have hfab : f a = f b := hxy
        have h1 : (s.up_groups n).1.m_locations.find a.1
            = (s.up_groups n).1.m_locations.find b.1 := by
          rw [hf a, hf b, hfab]
        exact i4 a.1 b.1 a.2 b.2 (hset a.1 a.2) h1
  · intro t
    obtain ⟨p, hpK, hp⟩ := i5 t.1 t.2
    refine ⟨Quot.mk _ ⟨p, hpK⟩, ?_⟩
    show f ⟨p, hpK⟩ = t
    apply Fin.ext
    have h2 := hf ⟨p, hpK⟩
    rw [hp] at h2
    have := Option.some.inj h2
    omega

theorem find_entry_eq_some (l : List (P × Int)) (hl : (l.map Prod.fst).Nodup) (p : P) (t : Int) :
    find_entry l p = some t ↔ (p, t) ∈ l := by
  induction l with
  | nil => simp [find_entry]
  | cons e l ih =>
    rw [List.map_cons, List.nodup_cons] at hl
    by_cases he : e.1 = p
    · simp only [find_entry, he, if_true, Option.some.injEq, List.mem_cons]
      constructor
      · intro h
        left
        rw [← h, ← he]
      · rintro (h | h)
        · rw [← h]
        · exfalso
          apply hl.1
          rw [he]
          exact List.mem_map.2 ⟨(p, t), h, rfl⟩
    · simp only [find_entry, he, if_false, List.mem_cons, ih hl.2]
      constructor
      · intro h
        exact Or.inr h
      · rintro (h | h)
        · exfalso
          apply he
          rw [← h]
        · exact h

theorem locations.find_eq_some (m : locations P) (p : P) (t : Int) :
    m.find p = some t ↔ (p, t) ∈ m.entries :=
  find_entry_eq_some m.entries m.nodup p t

theorem locations.mem_group (m : locations P) (g : Int) (p : P) :
    p ∈ m.group g ↔ m.find p = some g := by
  rw [m.find_eq_some]
  unfold locations.group
  simp only [List.mem_toFinset, List.mem_map, List.mem_filter, decide_eq_true_eq]
  constructor
  · rintro ⟨e, ⟨he, heg⟩, hep⟩
    have : e = (p, g) := Prod.ext hep heg
    rw [← this]
    exact he
  · intro h
    exact ⟨(p, g), ⟨h, rfl⟩, rfl⟩

theorem locations.find_remove_group (m : locations P) (g : Int) (p : P) :
    (m.remove_group g).find p = if m.find p = some g then none else m.find p := by
  have key : ∀ t : Int, (m.remove_group g).find p = some t ↔ (m.find p = some t ∧ t ≠ g) := by
    intro t
    rw [locations.find_eq_some, m.find_eq_some]
    unfold locations.remove_group
    simp only [List.mem_filter, decide_eq_true_eq]
  by_cases h : m.find p = some g
  · rw [if_pos h]
    cases hr : (m.remove_group g).find p with
    | none => rfl
    | some t =>
      obtain ⟨h1, h2⟩ := (key t).1 hr
      rw [h] at h1
      exact absurd (Option.some.inj h1).symm h2
  · rw [if_neg h]
    cases hm : m.find p with
    | none =>
      cases hr : (m.remove_group g).find p with
      | none => rfl
      | some t =>
        have := ((key t).1 hr).1
        rw [hm] at this
        exact Option.noConfusion this
    | some t =>
      apply (key t).2
      refine ⟨hm, ?_⟩
      intro htg
      apply h
      rw [hm, htg]

theorem locations.ext_entries (m1 m2 : locations P) (h : m1.entries = m2.entries) : m1 = m2 := by
  cases m1
  cases m2
  simp only [locations.mk.injEq]
  exact h

/-- Removing a group that no location carries changes nothing. -/
theorem locations.remove_group_absent (m : locations P) (g : Int)
    (h : ∀ p, m.find p ≠ some g) : m.remove_group g = m ∧ m.group g = ∅ := by
  constructor
  · apply locations.ext_entries
    unfold locations.remove_group
    simp only
    rw [List.filter_eq_self]
    intro e he
    simp only [decide_eq_true_eq]
    intro heg
    apply h e.1
    rw [m.find_eq_some, ← heg]
    exact he
  · apply Finset.eq_empty_of_forall_not_mem
    intro p hp
    exact h p ((m.mem_group g p).1 hp)

theorem locations.find_remove_group_ne (m : locations P) (g : Int) (p : P) :
    (m.remove_group g).find p ≠ some g := by
  rw [m.find_remove_group]
  by_cases h : m.find p = some g
  · rw [if_pos h]
    exact fun hc => Option.noConfusion hc
  · rw [if_neg h]
    exact h

end species_lemmas

/-! ## Claims about the groups of a species -/

section species_claims

variable {P : Type} [DecidableEq P]

/-- C9: `up_groups` keeps the occupied locations and gives each of them
exactly one group id, a number below the returned count; two occupied
locations get the same id exactly when a chain of adjacent occupied locations
of the species connects them; every id below the count is in use, and the
returned count, which is also stored as the group count, is the number of
connected components of the occupied set. -/
theorem up_groups_partition (s : species P) (n : network P) :
    (s.up_groups n).1.m_locations.keys = s.m_locations.keys ∧
    (∀ p, p ∈ s.m_locations.keys → ∃ t : Nat, t < (s.up_groups n).2 ∧
      (s.up_groups n).1.m_locations.find p = some (t : Int)) ∧
    (∀ p q, p ∈ s.m_locations.keys → q ∈ s.m_locations.keys →
      ((s.up_groups n).1.m_locations.find p = (s.up_groups n).1.m_locations.find q ↔
        s.connected n p q)) ∧
    (∀ t : Nat, t < (s.up_groups n).2 → ∃ p, p ∈ s.m_locations.keys ∧
      (s.up_groups n).1.m_locations.find p = some (t : Int)) ∧
    Nat.card (s.components n) = (s.up_groups n).2 ∧
    (s.up_groups n).1.m_groups = (s.up_groups n).2 := by
  obtain ⟨⟨i1, _, _, i4, i5⟩, hset⟩ := up_groups_spec s n
  refine ⟨i1, up_groups_tag s n, ?_, i5, up_groups_card_components s n, rfl⟩
  intro p q hp hq
  constructor
  · intro h
    exact i4 p q hp hq (hset p hp) h
  · intro h
    exact (up_groups_connected_same s n p q h hp).2.symm

/-- Witness for C9: in scenario B, `up_groups` returns 2, tags the adjacent
locations 1 and 2 alike and location 3 differently, and the occupied set has
two connected components. -/
theorem up_groups_partition_witness :
    (scenario_species.up_groups scenario_network).2 = 2 ∧
    scenario_species.connected scenario_network 1 2 ∧
    ¬ scenario_species.connected scenario_network 1 3 ∧
    Nat.card (scenario_species.components scenario_network) = 2 := by
  have h := up_groups_partition scenario_species scenario_network
  refine ⟨by decide, ?_, ?_, ?_⟩
  · exact (h.2.2.1 1 2 (by decide) (by decide)).1 (by decide)
  · intro hc
    have := (h.2.2.1 1 3 (by decide) (by decide)).2 hc
    revert this
    decide
  · rw [h.2.2.2.2.1]
    decide

/-- C10: `pop_group g` returns exactly the locations tagged `g` before the
call and removes exactly those: a location tagged `g` is no longer occupied,
every other location keeps its tag, and identifier, traits and cached group
count are untouched.  A second `pop_group g` on the result returns the empty
set and changes nothing, and so does `pop_group g` when no location carries
`g`. -/
theorem pop_group_exact (s : species P) (g : Int) :
    (∀ p, p ∈ (s.pop_group g).1 ↔ s.m_locations.find p = some g) ∧
    (∀ p, (s.pop_group g).2.m_locations.find p
      = if s.m_locations.find p = some g then none else s.m_locations.find p) ∧
    ((s.pop_group g).2.id = s.id ∧ (s.pop_group g).2.m_traits = s.m_traits ∧
      (s.pop_group g).2.m_groups = s.m_groups) ∧
    (s.pop_group g).2.pop_group g = (∅, (s.pop_group g).2) ∧
    ((∀ p, s.m_locations.find p ≠ some g) → s.pop_group g = (∅, s)) := by
  refine ⟨s.m_locations.mem_group g, s.m_locations.find_remove_group g, ⟨rfl, rfl, rfl⟩, ?_, ?_⟩
  · have h := (s.m_locations.remove_group g).remove_group_absent g
      (s.m_locations.find_remove_group_ne g)
    unfold species.pop_group
    simp only [h.1, h.2]
  · intro habs
    have h := s.m_locations.remove_group_absent g habs
    unfold species.pop_group
    simp only [h.1, h.2]

/-- Witness for C10: in scenario B after `up_groups`, popping group 1 returns
location 3 and leaves locations 1 and 2; popping the absent group 5 returns
nothing and changes nothing. -/
theorem pop_group_exact_witness :
    (((scenario_species.up_groups scenario_network).1.pop_group 1).1 = {3} ∧
      ((scenario_species.up_groups scenario_network).1.pop_group 1).2.get_locations
        = [(1, 0), (2, 0)]) ∧
    (scenario_species.up_groups scenario_network).1.pop_group 5
      = (∅, (scenario_species.up_groups scenario_network).1) :=
  ⟨by decide,
    (pop_group_exact (scenario_species.up_groups scenario_network).1 5).2.2.2.2 (by
      intro p hp
      have hk : p ∈ (scenario_species.up_groups scenario_network).1.m_locations.keys :=
        (locations.mem_keys_iff _ p).2 ⟨5, hp⟩
      have hkeys : (scenario_species.up_groups scenario_network).1.m_locations.keys
          = [1, 2, 3] := by decide
      have hp3 : p = 1 ∨ p = 2 ∨ p = 3 := by
        rw [hkeys] at hk
        simpa using hk
      rcases hp3 with h | h | h <;> subst h <;> revert hp <;> decide)⟩

end species_claims

/-! ## Further lemmas about the hypersphere sampler -/

section sampler_geometry

variable {R : Type} [LinearOrderedCommRing R]

theorem sum_squares_nonneg (v : List R) : 0 ≤ sum_squares v := by
  unfold sum_squares
  apply List.sum_nonneg
  intro y hy
  obtain ⟨x, _, hx⟩ := List.mem_map.1 hy
  rw [← hx]
  exact mul_self_nonneg x

theorem sum_squares_eq_sum_range (v : List R) :
    sum_squares v = Finset.sum (Finset.range v.length) (fun i => (v.getD i 0) ^ 2) := by
  induction v with
  | nil => simp [sum_squares]
  | cons x v ih =>
    rw [List.length_cons, Finset.sum_range_succ']
    simp only [List.getD_cons_succ, List.getD_cons_zero]
    rw [← ih]
    simp only [sum_squares, List.map_cons, List.sum_cons]
    ring

theorem in_sphere_zero_eq_false (v : List R) : in_sphere v 0 = false := by
  rw [in_sphere_eq]
  have := sum_squares_nonneg v
  simp only [mul_zero, decide_eq_false_iff_not, not_lt]
  exact this

/-- The distance to the all-zero vector of the same length is the square root
of the sum of the squares. -/
theorem euclidean_distance_zero (sqrt : R → R) (v : List R) :
    euclidean_distance sqrt v (List.replicate v.length 0) = sqrt (sum_squares v) := by
  rw [euclidean_distance_eq, sum_squares_eq_sum_range]
  simp only [List.length_replicate, min_self]
  congr 1
  apply Finset.sum_congr rfl
  intro i hi
  have hi2 : i < v.length := Finset.mem_range.1 hi
  simp [List.getD_eq_getElem?_getD, List.getElem?_replicate, hi2]

/-- In exact arithmetic `in_sphere v r` is true exactly when the sum of the
squares of the components of `v` is strictly less than `r * r`; a vector whose
squared norm equals `r * r` is reported as outside. -/
theorem in_sphere_exact_iff (v : List R) (r : R) :
    (in_sphere v r = true ↔ sum_squares v < r * r) ∧
    (sum_squares v = r * r → in_sphere v r = false) := by
  rw [in_sphere_eq]
  constructor
  · simp
  · intro h
    simp [h]

/-- In exact arithmetic: `in_sphere v 0` is false for every vector `v`, the empty one
included, whereas the empty vector is inside the sphere of radius `r` exactly
when `r ≠ 0`; hence with radius 0 no candidate is ever accepted: however many
trials are watched, neither `random_n_sphere` nor `white_noise` has returned,
for any dimension, vector and stream of draws. -/
theorem in_sphere_radius_zero_exact (v : List R) (r : R) :
    in_sphere v 0 = false ∧
    (in_sphere ([] : List R) r = true ↔ r ≠ 0) ∧
    (∀ (fuel : Nat) (rng : Draws R) (n : Nat), random_n_sphere fuel rng n (0 : R) = none) ∧
    (∀ (fuel : Nat) (xs : List R) (rng : Draws R), white_noise fuel xs rng (0 : R) = none) := by
  refine ⟨in_sphere_zero_eq_false v, ?_, ?_, ?_⟩
  · rw [in_sphere_eq, decide_eq_true_eq]
    simp only [sum_squares, List.map_nil, List.sum_nil]
    exact mul_self_pos
  · intro fuel rng n
    rw [← Option.not_isSome_iff_eq_none, random_n_sphere_isSome_iff]
    rintro ⟨k, _, hacc⟩
    rw [in_sphere_zero_eq_false] at hacc
    exact Bool.noConfusion hacc
  · intro fuel xs rng
    rw [← Option.not_isSome_iff_eq_none, white_noise_isSome_iff]
    rintro ⟨k, _, hacc⟩
    rw [in_sphere_zero_eq_false] at hacc
    exact Bool.noConfusion hacc

end sampler_geometry

/-! ## The sampler over the reals -/

section sampler_real

theorem distance_sum_nonneg (a b : List ℝ) (m : Nat) :
    0 ≤ Finset.sum (Finset.range m) (fun i => (a.getD i 0 - b.getD i 0) ^ 2) :=
  Finset.sum_nonneg (fun _ _ => sq_nonneg _)

/-- The triangle inequality for the root of a sum of squared differences. -/
theorem sqrt_sum_sq_triangle (m : Nat) (f g h : Nat → ℝ) :
    Real.sqrt (Finset.sum (Finset.range m) (fun i => (f i - h i) ^ 2))
      ≤ Real.sqrt (Finset.sum (Finset.range m) (fun i => (f i - g i) ^ 2))
        + Real.sqrt (Finset.sum (Finset.range m) (fun i => (g i - h i) ^ 2)) := by
  have key : ∀ u w : Nat → ℝ,
      Real.sqrt (Finset.sum (Finset.range m) (fun i => (u i - w i) ^ 2))
        = dist ((WithLp.equiv 2 (Fin m → ℝ)).symm (fun i => u i))
            ((WithLp.equiv 2 (Fin m → ℝ)).symm (fun i => w i)) := by
    intro u w
    rw [EuclideanSpace.dist_eq, Finset.sum_range]
    congr 1
    apply Finset.sum_congr rfl
    intro i _
    simp [Real.dist_eq, sq_abs]
  rw [key f h, key f g, key g h]
  exact dist_triangle _ _ _

theorem take_eq_take_iff {α : Type} [Zero α] (a b : List α) :
    a.take (min a.length b.length) = b.take (min a.length b.length) ↔
      ∀ i, i < min a.length b.length → a.getD i 0 = b.getD i 0 := by
  constructor
  · intro h i hi
    have h1 : (a.take (min a.length b.length))[i]? = (b.take (min a.length b.length))[i]? := by
      rw [h]
    simp only [List.getElem?_take, hi, if_true] at h1
    simp [List.getD_eq_getElem?_getD, h1]
  · intro h
    apply List.ext_getElem?
    intro i
    simp only [List.getElem?_take]
    by_cases hi : i < min a.length b.length
    · have ha : i < a.length := lt_of_lt_of_le hi (Nat.min_le_left _ _)
      have hb : i < b.length := lt_of_lt_of_le hi (Nat.min_le_right _ _)
      have := h i hi
      simp only [List.getD_eq_getElem?_getD, List.getElem?_eq_getElem ha,
        List.getElem?_eq_getElem hb, Option.getD_some] at this
      simp [hi, List.getElem?_eq_getElem ha, List.getElem?_eq_getElem hb, this]
    · simp [hi]

/-- Over the reals, `in_sphere v r` holds exactly when the distance from
`v` to the all-zero vector of the same length is below `|r|`; and
`in_sphere v r = in_sphere v (-r)`. -/
theorem in_sphere_iff_distance_lt_real (v : List ℝ) (r : ℝ) :
    (in_sphere v r = true ↔
      euclidean_distance Real.sqrt v (List.replicate v.length 0) < |r|) ∧
    in_sphere v r = in_sphere v (-r) := by
  constructor
  · rw [euclidean_distance_zero, in_sphere_eq, decide_eq_true_eq, ← Real.sqrt_sq_eq_abs,
      Real.sqrt_lt_sqrt_iff (sum_squares_nonneg v), sq]
  · rw [in_sphere_eq, in_sphere_eq, neg_mul_neg]

/-- Over the reals, `euclidean_distance a b ≥ 0`, and it is `0` exactly
when `a` and `b` agree on their first `min |a| |b|` components; a zero distance
does not imply `a = b`, the empty vector being at distance 0 from `[1]`. -/
theorem euclidean_distance_eq_zero_iff_real (a b : List ℝ) :
    0 ≤ euclidean_distance Real.sqrt a b ∧
    (euclidean_distance Real.sqrt a b = 0 ↔
      a.take (min a.length b.length) = b.take (min a.length b.length)) ∧
    (([] : List ℝ) ≠ [1] ∧ euclidean_distance Real.sqrt ([] : List ℝ) [1] = 0) := by
  refine ⟨?_, ?_, ?_, ?_⟩
  · rw [euclidean_distance_eq]
    exact Real.sqrt_nonneg _
  · rw [euclidean_distance_eq, Real.sqrt_eq_zero (distance_sum_nonneg a b _),
      Finset.sum_eq_zero_iff_of_nonneg (fun i _ => sq_nonneg _), take_eq_take_iff]
    constructor
    · intro h i hi
      have := h i (Finset.mem_range.2 hi)
      have h2 : a.getD i 0 - b.getD i 0 = 0 := pow_eq_zero_iff (two_ne_zero) |>.1 this
      linarith
    · intro h i hi
      rw [h i (Finset.mem_range.1 hi)]
      simp
  · simp
  · simp [euclidean_distance, euclidean_loop]

end sampler_real

/-! ## Further claims about the hypersphere sampler -/

section sampler_claims_more

variable {R : Type} [Zero R] [Add R] [Sub R] [Mul R] [LT R] [∀ a b : R, Decidable (a < b)]

/-- C14: with the draws consumed `n` per trial, `random_n_sphere` returns
within `fuel` trials exactly when one of the first `fuel` blocks satisfies
`in_sphere`, and it then returns the block of the least-indexed such trial,
having consumed `(k + 1) * n` draws.  Every trial overwrites the whole vector:
the loop started on any vector of length `n` gives the result it gives on the
vector of zeros, so nothing a rejected trial wrote survives. -/
theorem random_n_sphere_first_accepted (fuel : Nat) (rng : Draws R) (n : Nat) (radius : R)
    (out : List R × Draws R) :
    (random_n_sphere fuel rng n radius = some out ↔
      ∃ k, k < fuel ∧ (∀ j, j < k → in_sphere (trial_block rng n j) radius = false) ∧
        in_sphere (trial_block rng n k) radius = true ∧
        out = (trial_block rng n k, rng.skip ((k + 1) * n))) ∧
    (∀ sphere : List R, sphere.length = n →
      random_n_sphere_loop fuel sphere rng n radius = random_n_sphere fuel rng n radius) := by
  refine ⟨random_n_sphere_eq_some_iff fuel rng n radius out, ?_⟩
  intro sphere hlen
  apply Option.ext
  intro o
  rw [Option.mem_def, Option.mem_def,
    random_n_sphere_loop_iff fuel sphere rng n radius o hlen,
    random_n_sphere_eq_some_iff fuel rng n radius o]

/-- Witness for C14: with radius 2 in dimension 2, on the stream
`2, 2, -1, 0, ...` the loop started on the vector `[9, 9]` returns the second
block, as it does started on zeros. -/
theorem random_n_sphere_first_accepted_witness :
    (random_n_sphere_loop 3 ([9, 9] : List ℤ)
        (fun i => if i < 2 then 2 else if i = 2 then -1 else 0) 2 2).map Prod.fst
      = some [-1, 0] := by
  rw [(random_n_sphere_first_accepted 3
    (fun i => if i < 2 then (2 : ℤ) else if i = 2 then -1 else 0) 2 2 ([], fun _ => 0)).2
    [9, 9] rfl]
  decide

end sampler_claims_more

section sampler_exact_claims_more

variable {R : Type} [LinearOrderedCommRing R]

end sampler_exact_claims_more

/-! ## Lemmas about the tree -/

section tree_lemmas

variable {P : Type} [DecidableEq P]

/-- Rewriting the `tbranch` part of the nodes leaves the identifiers alone. -/
theorem map_id_mapIdx (l : List (tnode P)) (f : Nat → tnode P → tnode P)
    (hf : ∀ i nd, (f i nd).sp.id = nd.sp.id) :
    (l.mapIdx f).map (fun nd => nd.sp.id) = l.map (fun nd => nd.sp.id) := by
  apply List.ext_getElem?
  intro i
  simp only [List.getElem?_map, List.getElem?_mapIdx, Option.map_map]
  cases l[i]? with
  | none => rfl
  | some nd => simp [hf]

theorem speciestree.ids_speciate (t : speciestree P) (parent date : Nat) :
    (t.speciate parent date).2.ids = t.ids ++ [t.m_id_count] := by
  unfold speciestree.ids speciestree.speciate
  simp only [List.map_append, List.map_cons, List.map_nil]
  rw [map_id_mapIdx]
  intro i nd
  by_cases h : i = parent <;> simp [h]

theorem speciestree.id_count_speciate (t : speciestree P) (parent date : Nat) :
    (t.speciate parent date).2.m_id_count = t.m_id_count + 1 := rfl

/-- The species that `speciate` returns carries the value the counter had. -/
theorem speciestree.id_at_speciate (t : speciestree P) (parent date : Nat) :
    (t.speciate parent date).2.id_at (t.speciate parent date).1 = some t.m_id_count := by
  unfold speciestree.id_at speciestree.speciate
  simp only
  rw [List.getElem?_append_right (by simp)]
  simp

theorem speciestree.ids_speciate_all (t : speciestree P) (calls : List (Nat × Nat)) :
    (t.speciate_all calls).ids = t.ids ++ List.range' t.m_id_count calls.length ∧
    (t.speciate_all calls).m_id_count = t.m_id_count + calls.length := by
  induction calls generalizing t with
  | nil => simp [speciestree.speciate_all]
  | cons call calls ih =>
    obtain ⟨h1, h2⟩ := ih (t.speciate call.1 call.2).2
    simp only [speciestree.speciate_all, List.length_cons]
    rw [h1, h2, t.ids_speciate, t.id_count_speciate, List.append_assoc]
    constructor
    · rfl
    · omega

theorem speciestree.speciate_ids_eq (t : speciestree P) (calls : List (Nat × Nat)) :
    t.speciate_ids calls = (List.range' t.m_id_count calls.length).map some := by
  induction calls generalizing t with
  | nil => simp [speciestree.speciate_ids]
  | cons call calls ih =>
    simp only [speciestree.speciate_ids, List.length_cons]
    rw [ih, t.id_at_speciate, t.id_count_speciate]
    rfl

end tree_lemmas

/-! ## Claims about the tree and the order of species -/

section tree_claims

variable {P : Type} [DecidableEq P]

/-- C11: `rmv_extinct date` returns exactly the extant species whose location
set is empty and removes exactly those from the extant set; every other
extant species stays in the set, and every species that is not returned is
left as it was.  The returned species get their end date stamped and nothing
else changed; root, start date and identifier counter are untouched. -/
theorem rmv_extinct_exact (t : speciestree P) (date : Nat) :
    (∀ h, h ∈ (t.rmv_extinct date).1 ↔ h ∈ t.m_tips ∧ t.extinct_at h = true) ∧
    (∀ h, h ∈ (t.rmv_extinct date).2.m_tips ↔ h ∈ t.m_tips ∧ t.extinct_at h = false) ∧
    (∀ h, h ∉ (t.rmv_extinct date).1 →
      (t.rmv_extinct date).2.m_nodes[h]? = t.m_nodes[h]?) ∧
    (∀ h, h ∈ (t.rmv_extinct date).1 →
      (t.rmv_extinct date).2.m_nodes[h]?
        = (t.m_nodes[h]?).map (fun nd => { nd with m_stop := some date })) ∧
    ((t.rmv_extinct date).2.m_root = t.m_root ∧
      (t.rmv_extinct date).2.m_start_date = t.m_start_date ∧
      (t.rmv_extinct date).2.m_id_count = t.m_id_count) := by
  refine ⟨?_, ?_, ?_, ?_, ⟨rfl, rfl, rfl⟩⟩
  · intro h
    simp [speciestree.rmv_extinct]
  · intro h
    simp only [speciestree.rmv_extinct, Finset.mem_sdiff, Finset.mem_filter, not_and,
      Bool.not_eq_true]
    constructor
    · rintro ⟨h1, h2⟩
      exact ⟨h1, h2 h1⟩
    · rintro ⟨h1, h2⟩
      exact ⟨h1, fun _ => h2⟩
  · intro h hh
    simp only [speciestree.rmv_extinct] at hh ⊢
    rw [List.getElem?_mapIdx]
    cases t.m_nodes[h]? with
    | none => rfl
    | some nd => simp [hh]
  · intro h hh
    simp only [speciestree.rmv_extinct] at hh ⊢
    rw [List.getElem?_mapIdx]
    cases t.m_nodes[h]? with
    | none => rfl
    | some nd => simp [hh]

/-- Witness for C11: of the three tips of the scenario tree only the second is
extinct; it is returned and stamped, and the first tip is left as it was. -/
theorem rmv_extinct_exact_witness :
    ((scenario_tree.rmv_extinct 9).1 = {1} ∧ (scenario_tree.rmv_extinct 9).2.m_tips = {0, 2}) ∧
    (scenario_tree.rmv_extinct 9).2.m_nodes[0]? = scenario_tree.m_nodes[0]? :=
  ⟨by decide, (rmv_extinct_exact scenario_tree 9).2.2.1 0 (by decide)⟩

/-- C12: after any sequence of `speciate` calls on a tree created with a root
of identifier 0, the identifiers of the species in the tree, in creation
order, are `0, 1, 2, ...`: each call gives its new species the identifier that
follows all those assigned before, so each identifier is strictly greater than
every earlier one and none is repeated. -/
theorem speciate_ids_strictly_increasing (traits : List ℚ) (calls : List (Nat × Nat)) :
    (speciestree.create traits : speciestree P).speciate_ids calls
      = (List.range' 1 calls.length).map some ∧
    ((speciestree.create traits : speciestree P).speciate_all calls).ids
      = List.range (calls.length + 1) ∧
    (((speciestree.create traits : speciestree P).speciate_all calls).ids).Pairwise
      (fun a b => a < b) ∧
    (((speciestree.create traits : speciestree P).speciate_all calls).ids).Nodup := by
  have hids : ((speciestree.create traits : speciestree P).speciate_all calls).ids
      = List.range (calls.length + 1) := by
    rw [((speciestree.create traits : speciestree P).ids_speciate_all calls).1]
    simp only [speciestree.create, speciestree.ids, List.map_cons, List.map_nil,
      List.singleton_append]
    rw [List.range_eq_range']
    rfl
  refine ⟨(speciestree.create traits : speciestree P).speciate_ids_eq calls, hids, ?_, ?_⟩
  · rw [hids]
    exact List.pairwise_lt_range _
  · rw [hids]
    exact List.nodup_range _

/-- C13: the results of `==`, `!=`, `<` and `>` on two species are those of the
same comparisons on their identifiers, so they are the same for any species
with the same identifiers, whatever their traits and locations.  Exactly one
of `s < t`, `s == t`, `s > t` holds, `s != t` is the negation of `s == t`, `>`
is the converse of `<`, and `<` is transitive. -/
theorem species_order_by_id (s t u s' t' : species P) (hs : s.id = s'.id) (ht : t.id = t'.id) :
    (s.op_eq t = s'.op_eq t' ∧ s.op_ne t = s'.op_ne t' ∧
      s.op_lt t = s'.op_lt t' ∧ s.op_gt t = s'.op_gt t') ∧
    ((s.op_eq t = true ↔ s.id = t.id) ∧ (s.op_lt t = true ↔ s.id < t.id) ∧
      (s.op_gt t = true ↔ t.id < s.id)) ∧
    ((s.op_lt t = true ∧ s.op_eq t = false ∧ s.op_gt t = false) ∨
      (s.op_lt t = false ∧ s.op_eq t = true ∧ s.op_gt t = false) ∨
      (s.op_lt t = false ∧ s.op_eq t = false ∧ s.op_gt t = true)) ∧
    s.op_ne t = !(s.op_eq t) ∧
    s.op_gt t = t.op_lt s ∧
    (s.op_lt t = true → t.op_lt u = true → s.op_lt u = true) := by
  unfold species.op_eq species.op_ne species.op_lt species.op_gt
  rw [hs, ht]
  refine ⟨⟨rfl, rfl, rfl, rfl⟩, ⟨by simp, by simp, by simp⟩, ?_, ?_, ?_, ?_⟩
  · simp only [decide_eq_true_eq, decide_eq_false_iff_not]
    omega
  · simp
  · rfl
  · simp only [decide_eq_true_eq]
    rw [← ht]
    omega

/-- Witness for C13: the scenario species and a species with the same
identifier 0 but other traits, no locations and another group count compare
alike with a species of identifier 1. -/
theorem species_order_by_id_witness :
    scenario_species.op_lt { scenario_species with id := 1 }
      = species.op_lt { id := 0, m_traits := [7], m_locations := ⟨[], List.nodup_nil⟩,
                        m_groups := 4 } { scenario_species with id := 1 } :=
  (species_order_by_id scenario_species { scenario_species with id := 1 } scenario_species
    { id := 0, m_traits := [7], m_locations := ⟨[], List.nodup_nil⟩, m_groups := 4 }
    { scenario_species with id := 1 } rfl rfl).1.2.2.1

end tree_claims

/-! ## Lemmas about the arithmetic of `double` -/

namespace binary64

theorem zero_def : (0 : binary64) = fin 0 emin := rfl

theorem add_def (x y : binary64) : x + y = add x y := rfl

theorem sub_def (x y : binary64) : x - y = add x (neg y) := rfl

theorem mul_def (x y : binary64) : x * y = mul x y := rfl

theorem neg_def (x : binary64) : -x = neg x := rfl

theorem lt_def (x y : binary64) : x < y ↔ lt x y = true := Iff.rfl

theorem le_def (x y : binary64) : x ≤ y ↔ le x y = true := Iff.rfl

theorem round_nat_zero (e : Int) : round_nat 0 e = fin 0 emin := by
  simp [round_nat]

/-- Rounding a natural number never gives `nan` nor a value below zero. -/
theorem round_nat_not_neg (n : Nat) (e : Int) :
    not_neg (round_nat n e) = true ∧ round_nat n e ≠ nan := by
  unfold round_nat
  simp only
  split_ifs <;> exact ⟨rfl, fun h => by cases h⟩

theorem round_ne_nan (m e : Int) : round m e ≠ nan := by
  unfold round
  have h := (round_nat_not_neg m.natAbs e).2
  split_ifs
  · intro hc
    apply h
    cases hr : round_nat m.natAbs e with
    | nan => rfl
    | inf s => rw [hr] at hc; simp [neg] at hc
    | fin a b => rw [hr] at hc; simp [neg] at hc
  · exact h

theorem round_of_nonneg (m e : Int) (h : 0 ≤ m) : round m e = round_nat m.natAbs e := by
  unfold round
  rw [if_neg (not_lt.2 h)]

theorem round_not_neg (m e : Int) (h : 0 ≤ m) : not_neg (round m e) = true := by
  rw [round_of_nonneg m e h]
  exact (round_nat_not_neg _ _).1

theorem mul_neg_neg (a : binary64) : (-a) * (-a) = a * a := by
  cases a with
  | nan => rfl
  | inf s => cases s <;> rfl
  | fin m e =>
    show round (-m * -m) (e + e) = round (m * m) (e + e)
    rw [neg_mul_neg]

theorem mul_self_not_neg (x : binary64) : not_neg (x * x) = true := by
  cases x with
  | nan => rfl
  | inf s => cases s <;> rfl
  | fin m e => exact round_not_neg _ _ (mul_self_nonneg m)

theorem add_not_neg (x y : binary64) (hx : not_neg x = true) (hy : not_neg y = true) :
    not_neg (x + y) = true := by
  cases x with
  | nan => cases y <;> rfl
  | inf s =>
    cases y with
    | nan => rfl
    | inf t =>
      simp only [not_neg, Bool.not_eq_true'] at hx hy
      subst hx hy
      rfl
    | fin m e => exact hx
  | fin m e =>
    cases y with
    | nan => rfl
    | inf t => exact hy
    | fin m2 e2 =>
      simp only [not_neg, decide_eq_true_eq] at hx hy
      apply round_not_neg
      apply add_nonneg
      · exact mul_nonneg hx (Int.natCast_nonneg _)
      · exact mul_nonneg hy (Int.natCast_nonneg _)

theorem mul_zero_zero : (0 : binary64) * 0 = 0 := by decide

theorem add_zero_zero : (0 : binary64) + 0 = 0 := by decide

theorem sqrt_zero : sqrt 0 = 0 := by decide

/-- A value that is not below zero is not smaller than zero. -/
theorem not_lt_zero (x : binary64) (hx : not_neg x = true) : ¬ x < 0 := by
  rw [lt_def, zero_def]
  cases x with
  | nan => simp [lt]
  | inf s =>
    simp only [not_neg, Bool.not_eq_true'] at hx
    simp [lt, hx]
  | fin m e =>
    simp only [not_neg, decide_eq_true_eq] at hx
    simp only [lt, zero_mul, decide_eq_true_eq, not_lt]
    exact mul_nonneg hx (Int.natCast_nonneg _)

theorem lt_irrefl (x : binary64) : ¬ x < x := by
  rw [lt_def]
  cases x with
  | nan => simp [lt]
  | inf s => cases s <;> simp [lt]
  | fin m e => simp [lt]

theorem round_zero (e : Int) : round 0 e = 0 := by
  rw [round_of_nonneg 0 e (le_refl 0)]
  exact round_nat_zero e

theorem sub_self_of_finite (x : binary64) (h : finite x = true) : x - x = 0 := by
  cases x with
  | nan => cases h
  | inf s => cases h
  | fin m e =>
    show round (m * ((2 ^ (e - min e e).toNat : Nat) : Int)
      + -m * ((2 ^ (e - min e e).toNat : Nat) : Int)) (min e e) = 0
    have h0 : m * ((2 ^ (e - min e e).toNat : Nat) : Int)
        + -m * ((2 ^ (e - min e e).toNat : Nat) : Int) = 0 := by ring
    rw [h0]
    exact round_zero _

theorem sub_ne_nan_of_finite (x y : binary64) (hx : finite x = true) (hy : finite y = true) :
    x - y ≠ nan := by
  cases x with
  | nan => cases hx
  | inf s => cases hx
  | fin m e =>
    cases y with
    | nan => cases hy
    | inf s => cases hy
    | fin m2 e2 => exact round_ne_nan _ _

theorem mul_self_ne_nan (x : binary64) (hx : x ≠ nan) : x * x ≠ nan := by
  cases x with
  | nan => exact absurd rfl hx
  | inf s => intro h; cases h
  | fin m e => exact round_ne_nan _ _

theorem add_ne_nan (x y : binary64) (hx : not_neg x = true) (hy : not_neg y = true)
    (hxn : x ≠ nan) (hyn : y ≠ nan) : x + y ≠ nan := by
  cases x with
  | nan => exact absurd rfl hxn
  | inf s =>
    cases y with
    | nan => exact absurd rfl hyn
    | inf t =>
      simp only [not_neg, Bool.not_eq_true'] at hx hy
      subst hx hy
      intro h
      cases h
    | fin m e => intro h; cases h
  | fin m e =>
    cases y with
    | nan => exact absurd rfl hyn
    | inf t => intro h; cases h
    | fin m2 e2 => exact round_ne_nan _ _

theorem sqrt_not_neg (x : binary64) (hx : not_neg x = true) (hxn : x ≠ nan) :
    not_neg (sqrt x) = true ∧ sqrt x ≠ nan := by
  cases x with
  | nan => exact absurd rfl hxn
  | inf s =>
    simp only [not_neg, Bool.not_eq_true'] at hx
    subst hx
    exact ⟨rfl, fun h => by cases h⟩
  | fin m e =>
    simp only [not_neg, decide_eq_true_eq] at hx
    unfold sqrt
    simp only [not_lt.2 hx, if_false]
    split_ifs
    · exact ⟨rfl, fun h => by cases h⟩
    all_goals exact round_nat_not_neg _ _

/-- Zero is at most every number that is not below zero. -/
theorem zero_le (x : binary64) (hx : not_neg x = true) (hxn : x ≠ nan) : 0 ≤ x := by
  rw [le_def, zero_def]
  cases x with
  | nan => exact absurd rfl hxn
  | inf s =>
    simp only [not_neg, Bool.not_eq_true'] at hx
    simp [le, hx]
  | fin m e =>
    simp only [not_neg, decide_eq_true_eq] at hx
    simp only [le, zero_mul, decide_eq_true_eq]
    exact mul_nonneg hx (Int.natCast_nonneg _)

theorem getD_finite (xs : List binary64) (h : ∀ x, x ∈ xs → finite x = true) (i : Nat) :
    finite (xs.getD i 0) = true := by
  by_cases hi : i < xs.length
  · rw [List.getD_eq_getElem xs 0 hi]
    exact h _ (List.getElem_mem hi)
  · rw [List.getD_eq_default xs 0 (not_lt.1 hi)]
    rfl

end binary64

section sampler_double

open binary64

/-- The accumulator of `in_sphere` is never below zero in `double`. -/
theorem foldl_squares_not_neg (v : List binary64) (s : binary64) (hs : not_neg s = true) :
    not_neg (v.foldl (fun sum x => sum + x * x) s) = true := by
  induction v generalizing s with
  | nil => exact hs
  | cons x v ih =>
    rw [List.foldl_cons]
    exact ih _ (add_not_neg s (x * x) hs (mul_self_not_neg x))

theorem in_sphere_zero_double (v : List binary64) : in_sphere v 0 = false := by
  unfold in_sphere
  rw [mul_zero_zero, decide_eq_false_iff_not]
  exact not_lt_zero _ (foldl_squares_not_neg v 0 rfl)

theorem in_sphere_neg_double (v : List binary64) (r : binary64) :
    in_sphere v r = in_sphere v (-r) := by
  unfold in_sphere
  rw [mul_neg_neg]

/-- On vectors of numbers the accumulator of `euclidean_distance` stays a
number that is not below zero. -/
theorem euclidean_loop_not_neg (k i : Nat) (xs ys : List binary64) (s : binary64)
    (hxs : ∀ x, x ∈ xs → finite x = true) (hys : ∀ y, y ∈ ys → finite y = true)
    (hs : not_neg s = true) (hsn : s ≠ nan) :
    not_neg (euclidean_loop k i xs ys s) = true ∧ euclidean_loop k i xs ys s ≠ nan := by
  induction k generalizing i s with
  | zero => exact ⟨hs, hsn⟩
  | succ k ih =>
    rw [euclidean_loop]
    have hsub : xs.getD i 0 - ys.getD i 0 ≠ nan :=
      sub_ne_nan_of_finite _ _ (getD_finite xs hxs i) (getD_finite ys hys i)
    exact ih (i + 1) _
      (add_not_neg s _ hs (mul_self_not_neg _))
      (add_ne_nan s _ hs (mul_self_not_neg _) hsn (mul_self_ne_nan _ hsub))

/-- The accumulator of `euclidean_distance` stays 0 while the differences it
meets are 0. -/
theorem euclidean_loop_zero (k i : Nat) (xs ys : List binary64)
    (h : ∀ j, i ≤ j → j < i + k → xs.getD j 0 - ys.getD j 0 = 0) :
    euclidean_loop k i xs ys 0 = 0 := by
  induction k generalizing i with
  | zero => rfl
  | succ k ih =>
    rw [euclidean_loop, h i (le_refl i) (by omega), mul_zero_zero, add_zero_zero]
    exact ih (i + 1) (fun j h1 h2 => h j (by omega) (by omega))

theorem euclidean_distance_not_neg_double (a b : List binary64)
    (ha : ∀ x, x ∈ a → finite x = true) (hb : ∀ y, y ∈ b → finite y = true) :
    0 ≤ euclidean_distance binary64.sqrt a b := by
  have h := euclidean_loop_not_neg (min a.length b.length) 0 a b 0 ha hb rfl
    (fun hc => by cases hc)
  have h2 := sqrt_not_neg _ h.1 h.2
  exact binary64.zero_le _ h2.1 h2.2

end sampler_double

/-! ## Claims that depend on the arithmetic -/

section sampler_arithmetic_claims

open binary64

variable {R : Type} [Zero R] [Add R] [Sub R] [Mul R] [LT R] [∀ a b : R, Decidable (a < b)]

/-- C4, refuted as stated, in `double`.  The vector `[2^-600]` has squared
norm `2^-1200`, below the square `2^-1198` of the radius `2^-599`, and is
reported outside, both squares being rounded to 0.  The vector of `1` followed
by nine times `2^-27` has squared norm `1 + 9 * 2^-54`, above the square of
the radius `1 + 2^-52`, and is reported inside: every sum is rounded back to
1, and the square of the radius to `1 + 2^-51`. -/
theorem in_sphere_inexact_in_double :
    (in_sphere [fin (2 ^ 52) (-652)] (fin (2 ^ 52) (-651)) = false ∧
      sum_squares [val (fin (2 ^ 52) (-652))]
        < val (fin (2 ^ 52) (-651)) * val (fin (2 ^ 52) (-651))) ∧
    (in_sphere (fin (2 ^ 52) (-52) :: List.replicate 9 (fin (2 ^ 52) (-79)))
        (fin (2 ^ 52 + 1) (-52)) = true ∧
      ¬ sum_squares (val (fin (2 ^ 52) (-52)) :: List.replicate 9 (val (fin (2 ^ 52) (-79))))
        < val (fin (2 ^ 52 + 1) (-52)) * val (fin (2 ^ 52 + 1) (-52))) := by
  refine ⟨⟨by decide, ?_⟩, ⟨by decide, ?_⟩⟩
  · norm_num [sum_squares, val]
  · norm_num [sum_squares, val, List.replicate]

/-- The comparison of `in_sphere` reads the accumulated sum of squares. -/
theorem in_sphere_eq_accumulated (v : List R) (r : R) :
    in_sphere v r = decide (accumulated_squares v < r * r) := by
  unfold in_sphere accumulated_squares
  rw [List.foldl_map]

theorem accumulated_squares_exact {K : Type} [LinearOrderedCommRing K] (v : List K) :
    accumulated_squares v = sum_squares v := by
  unfold accumulated_squares
  rw [List.foldl_map, foldl_squares, zero_add]

/-- C4, amended: `in_sphere v r` is true exactly when the sum of squares that
the code accumulates, adding `x * x` for one component after the other to 0
in the arithmetic of `Real`, is strictly less than `r * r` computed in that
arithmetic; in `double` a vector whose accumulated sum equals the computed
`r * r` is reported as outside.  When the arithmetic is exact the accumulated
sum is the sum of the squares of the components, `in_sphere v r` is true
exactly when that sum is strictly less than `r * r`, and a vector whose
squared norm equals `r * r` is reported as outside. -/
theorem in_sphere_iff_accumulated_lt {K : Type} [LinearOrderedCommRing K] :
    (∀ (v : List R) (r : R), in_sphere v r = true ↔ accumulated_squares v < r * r) ∧
    (∀ (v : List binary64) (r : binary64),
      accumulated_squares v = r * r → in_sphere v r = false) ∧
    (∀ (v : List K) (r : K), accumulated_squares v = sum_squares v ∧
      (in_sphere v r = true ↔ sum_squares v < r * r) ∧
      (sum_squares v = r * r → in_sphere v r = false)) := by
  refine ⟨?_, ?_, ?_⟩
  · intro v r
    rw [in_sphere_eq_accumulated, decide_eq_true_eq]
  · intro v r h
    rw [in_sphere_eq_accumulated, h, decide_eq_false_iff_not]
    exact binary64.lt_irrefl _
  · intro v r
    exact ⟨accumulated_squares_exact v, in_sphere_exact_iff v r⟩

/-- Witness for C4: in `double` the vector `[3, 4]` accumulates `25`, the
square of the radius `5`, and is reported outside. -/
theorem in_sphere_iff_accumulated_lt_witness :
    accumulated_squares [fin (3 * 2 ^ 51) (-51), fin (2 ^ 52) (-50)]
        = fin (5 * 2 ^ 50) (-50) * fin (5 * 2 ^ 50) (-50) ∧
      in_sphere [fin (3 * 2 ^ 51) (-51), fin (2 ^ 52) (-50)] (fin (5 * 2 ^ 50) (-50)) = false :=
  ⟨by decide,
    (@in_sphere_iff_accumulated_lt ℤ _ _ _ _ _ _ ℤ _).2.1
      [fin (3 * 2 ^ 51) (-51), fin (2 ^ 52) (-50)] (fin (5 * 2 ^ 50) (-50)) (by decide)⟩

/-- C15, refuted as stated, in `double`.  For `v = [2^-600]` and `r = 2^-600`
`in_sphere v r` is false while the distance from `v` to `[0]` is 0, below
`|r|`: the square underflows.  For `v = [0.25, 0.5]` and `r` the rounded root
of `0.3125`, `in_sphere v r` is true while the distance from `v` to `[0, 0]` is
`r` itself, not below `|r|`: the square of `r` is rounded up. -/
theorem in_sphere_distance_lt_fails_in_double :
    (in_sphere [fin (2 ^ 52) (-652)] (fin (2 ^ 52) (-652)) = false ∧
      euclidean_distance binary64.sqrt [fin (2 ^ 52) (-652)]
          (List.replicate [fin (2 ^ 52) (-652)].length 0)
        < binary64.abs (fin (2 ^ 52) (-652))) ∧
    (in_sphere [fin (2 ^ 52) (-54), fin (2 ^ 52) (-53)]
        (binary64.sqrt (fin (5 * 2 ^ 50) (-54))) = true ∧
      ¬ euclidean_distance binary64.sqrt [fin (2 ^ 52) (-54), fin (2 ^ 52) (-53)]
          (List.replicate [fin (2 ^ 52) (-54), fin (2 ^ 52) (-53)].length 0)
        < binary64.abs (binary64.sqrt (fin (5 * 2 ^ 50) (-54)))) := by
  decide

/-- C15, amended: `in_sphere v r = in_sphere v (-r)` for every vector and
radius, in `double` as in exact arithmetic; and when the arithmetic and the
square root are exact, as over the real numbers, `in_sphere v r` holds exactly
when the distance from `v` to the all-zero vector of the same length is below
`|r|`. -/
theorem in_sphere_neg_radius :
    (∀ (v : List binary64) (r : binary64), in_sphere v r = in_sphere v (-r)) ∧
    (∀ (v : List ℝ) (r : ℝ),
      (in_sphere v r = true ↔
        euclidean_distance Real.sqrt v (List.replicate v.length 0) < |r|) ∧
      in_sphere v r = in_sphere v (-r)) :=
  ⟨in_sphere_neg_double, in_sphere_iff_distance_lt_real⟩

/-- C16, refuted as stated, in `double`.  For `a = [-1, 0.75]`,
`b = [-0.375, 0.625]` and `c = [0.875, 0.375]`, three vectors of length 2 on
one line, the rounded roots give `d(a, b) + d(b, c) < d(a, c)`, one unit in the
last place apart. -/
theorem euclidean_distance_triangle_fails_in_double :
    [fin (-(2 ^ 52)) (-52), fin (3 * 2 ^ 51) (-53)].length
        = [fin (-(3 * 2 ^ 51)) (-54), fin (5 * 2 ^ 50) (-53)].length ∧
    [fin (-(3 * 2 ^ 51)) (-54), fin (5 * 2 ^ 50) (-53)].length
        = [fin (7 * 2 ^ 50) (-53), fin (3 * 2 ^ 51) (-54)].length ∧
    euclidean_distance binary64.sqrt [fin (-(2 ^ 52)) (-52), fin (3 * 2 ^ 51) (-53)]
          [fin (-(3 * 2 ^ 51)) (-54), fin (5 * 2 ^ 50) (-53)]
        + euclidean_distance binary64.sqrt [fin (-(3 * 2 ^ 51)) (-54), fin (5 * 2 ^ 50) (-53)]
          [fin (7 * 2 ^ 50) (-53), fin (3 * 2 ^ 51) (-54)]
      < euclidean_distance binary64.sqrt [fin (-(2 ^ 52)) (-52), fin (3 * 2 ^ 51) (-53)]
          [fin (7 * 2 ^ 50) (-53), fin (3 * 2 ^ 51) (-54)] := by
  decide

/-- C16, amended: when the arithmetic of `Real` and the square root are exact,
as over the real numbers, for vectors `a`, `b`, `c` of the same length
`euclidean_distance a c ≤ euclidean_distance a b + euclidean_distance b c`. -/
theorem euclidean_distance_triangle (a b c : List ℝ) (hab : a.length = b.length)
    (hbc : b.length = c.length) :
    euclidean_distance Real.sqrt a c
      ≤ euclidean_distance Real.sqrt a b + euclidean_distance Real.sqrt b c := by
  rw [euclidean_distance_eq, euclidean_distance_eq, euclidean_distance_eq]
  have h1 : min a.length c.length = a.length := by omega
  have h2 : min a.length b.length = a.length := by omega
  have h3 : min b.length c.length = a.length := by omega
  rw [h1, h2, h3]
  exact sqrt_sum_sq_triangle a.length (fun i => a.getD i 0) (fun i => b.getD i 0)
    (fun i => c.getD i 0)

/-- Witness for C16: the vectors `[0, 0]`, `[3, 4]` and `[6, 8]`. -/
theorem euclidean_distance_triangle_witness :
    euclidean_distance Real.sqrt [0, 0] [6, 8]
      ≤ euclidean_distance Real.sqrt [0, 0] [3, 4] + euclidean_distance Real.sqrt [3, 4] [6, 8] :=
  euclidean_distance_triangle [0, 0] [3, 4] [6, 8] rfl rfl

/-- C17, refuted as stated, in `double`.  The vectors `[2^-600]` and `[0]`
differ in their one component and are at distance 0: the squared difference
underflows. -/
theorem euclidean_distance_zero_on_distinct_in_double :
    euclidean_distance binary64.sqrt [fin (2 ^ 52) (-652)] [0] = 0 ∧
    [fin (2 ^ 52) (-652)].take (min [fin (2 ^ 52) (-652)].length [(0 : binary64)].length)
      ≠ [(0 : binary64)].take (min [fin (2 ^ 52) (-652)].length [(0 : binary64)].length) := by
  decide

/-- C17, amended: for vectors of numbers `euclidean_distance a b ≥ 0`, and it
is 0 whenever `a` and `b` agree on their first `min |a| |b|` components, in
`double` as in exact arithmetic; a zero distance does not imply `a = b`, the
empty vector being at distance 0 from `[1]`.  When the arithmetic and the
square root are exact, as over the real numbers, the distance is 0 only when
`a` and `b` agree on those components. -/
theorem euclidean_distance_zero_of_agree :
    (∀ a b : List binary64, (∀ x, x ∈ a → finite x = true) → (∀ y, y ∈ b → finite y = true) →
      0 ≤ euclidean_distance binary64.sqrt a b ∧
      (a.take (min a.length b.length) = b.take (min a.length b.length) →
        euclidean_distance binary64.sqrt a b = 0)) ∧
    (([] : List binary64) ≠ [fin (2 ^ 52) (-52)] ∧
      euclidean_distance binary64.sqrt ([] : List binary64) [fin (2 ^ 52) (-52)] = 0) ∧
    (∀ a b : List ℝ,
      0 ≤ euclidean_distance Real.sqrt a b ∧
      (euclidean_distance Real.sqrt a b = 0 ↔
        a.take (min a.length b.length) = b.take (min a.length b.length)) ∧
      (([] : List ℝ) ≠ [1] ∧ euclidean_distance Real.sqrt ([] : List ℝ) [1] = 0)) := by
  refine ⟨?_, by decide, euclidean_distance_eq_zero_iff_real⟩
  intro a b ha hb
  refine ⟨euclidean_distance_not_neg_double a b ha hb, ?_⟩
  intro hab
  have hget := (take_eq_take_iff a b).1 hab
  unfold euclidean_distance
  rw [euclidean_loop_zero, binary64.sqrt_zero]
  intro j _ hj
  have hj2 : j < min a.length b.length := by omega
  rw [hget j hj2]
  exact sub_self_of_finite _ (getD_finite b hb j)

/-- Witness for C17: in `double` the vectors `[1, 2]` and `[1, 2, 3]` agree on
their first two components and are at distance 0. -/
theorem euclidean_distance_zero_of_agree_witness :
    euclidean_distance binary64.sqrt [fin (2 ^ 52) (-52), fin (2 ^ 52) (-51)]
      [fin (2 ^ 52) (-52), fin (2 ^ 52) (-51), fin (3 * 2 ^ 51) (-51)] = 0 :=
  (euclidean_distance_zero_of_agree.1 [fin (2 ^ 52) (-52), fin (2 ^ 52) (-51)]
    [fin (2 ^ 52) (-52), fin (2 ^ 52) (-51), fin (3 * 2 ^ 51) (-51)]
    (by decide) (by decide)).2 (by decide)

/-- C19, refuted as stated, in `double`.  The radius `2^-600` is not 0 and the
empty vector is reported outside its sphere: the square of the radius
underflows to 0. -/
theorem in_sphere_empty_false_in_double :
    fin (2 ^ 52) (-652) ≠ (0 : binary64) ∧
    in_sphere ([] : List binary64) (fin (2 ^ 52) (-652)) = false := by
  decide

/-- C19, amended: `in_sphere v 0` is false for every vector `v`, the empty one
included, and with radius 0 no candidate is ever accepted: however many trials
are watched, neither `random_n_sphere` nor `white_noise` has returned, for any
dimension, vector and stream of draws; this in `double` as in exact
arithmetic.  The empty vector is inside the sphere of radius `r` exactly when
`r * r`, as computed, is above 0: for every `r ≠ 0` when the arithmetic is
exact. -/
theorem in_sphere_radius_zero {K : Type} [LinearOrderedCommRing K] :
    ((∀ v : List binary64, in_sphere v 0 = false) ∧
      (∀ (fuel : Nat) (rng : Draws binary64) (n : Nat),
        random_n_sphere fuel rng n (0 : binary64) = none) ∧
      (∀ (fuel : Nat) (xs : List binary64) (rng : Draws binary64),
        white_noise fuel xs rng (0 : binary64) = none)) ∧
    (∀ r : R, in_sphere ([] : List R) r = true ↔ 0 < r * r) ∧
    (∀ (v : List K) (r : K),
      in_sphere v 0 = false ∧
      (in_sphere ([] : List K) r = true ↔ r ≠ 0) ∧
      (∀ (fuel : Nat) (rng : Draws K) (n : Nat), random_n_sphere fuel rng n (0 : K) = none) ∧
      (∀ (fuel : Nat) (xs : List K) (rng : Draws K), white_noise fuel xs rng (0 : K) = none)) := by
  refine ⟨⟨in_sphere_zero_double, ?_, ?_⟩, ?_, in_sphere_radius_zero_exact⟩
  · intro fuel rng n
    rw [← Option.not_isSome_iff_eq_none, random_n_sphere_isSome_iff]
    rintro ⟨k, _, hacc⟩
    rw [in_sphere_zero_double] at hacc
    exact Bool.noConfusion hacc
  · intro fuel xs rng
    rw [← Option.not_isSome_iff_eq_none, white_noise_isSome_iff]
    rintro ⟨k, _, hacc⟩
    rw [in_sphere_zero_double] at hacc
    exact Bool.noConfusion hacc
  · intro r
    simp [in_sphere]

end sampler_arithmetic_claims

end wagner
